import Mathlib

set_option linter.unusedVariables false

/-! Shallow embedding of the cut_optimizer placement engine
(src/types.rs, src/guillotine.rs, src/solver.rs).
Machine integers (u32, u64) are modelled as Nat; every subtraction in the
source is either a saturating_sub (Nat subtraction is exactly saturating) or
is guarded by a fits test that keeps the left operand at least the right one,
so Nat subtraction agrees with the machine value on every reachable state.
Fallible paths (Rust panics: expect / unwrap / index out of range) are
modelled with Option. -/

/-- Rectangle with x-extent length and y-extent width (src/types.rs, Rect). -/
structure Rect where
  length : Nat
  width : Nat
deriving DecidableEq, Repr

/-- Rect::area (u64 product of the two u32 dimensions; no overflow). -/
def Rect.area (r : Rect) : Nat := r.length * r.width

/-- Rect::rotated swaps the two dimensions. -/
def Rect.rotated (r : Rect) : Rect := ⟨r.width, r.length⟩

/-- Rect::fits_in: both dimensions at most the outer dimensions. -/
def Rect.fits_in (r other : Rect) : Bool :=
  decide (r.length ≤ other.length ∧ r.width ≤ other.width)

/-- CutDirection (declared in the part of types.rs that is not under src/;
the three variants are fixed by the spec and by every use site). -/
inductive CutDirection
  | Auto
  | AlongLength
  | AlongWidth
deriving DecidableEq, Repr

/-- StockGrain (same provenance as CutDirection). -/
inductive StockGrain
  | None
  | AlongLength
  | AlongWidth
deriving DecidableEq, Repr

/-- PieceGrain (same provenance as CutDirection). -/
inductive PieceGrain
  | Auto
  | Length
  | Width
deriving DecidableEq, Repr

/-- RotationConstraint (same provenance as CutDirection). -/
inductive RotationConstraint
  | NoRotate
  | ForceRotate
  | Free
deriving DecidableEq, Repr

/-- Demand (src/types.rs plus the grain field used by src/solver.rs). -/
structure Demand where
  rect : Rect
  qty : Nat
  allow_rotate : Bool
  grain : PieceGrain
deriving DecidableEq, Repr

/-- Placement (src/types.rs). -/
structure Placement where
  rect : Rect
  x : Nat
  y : Nat
  rotated : Bool
deriving DecidableEq, Repr

/-- SheetResult (src/types.rs). -/
structure SheetResult where
  placements : List Placement
  waste_area : Nat
deriving DecidableEq, Repr

/-- Solution (src/types.rs). -/
structure Solution where
  sheets : List SheetResult
  stock : Rect
deriving DecidableEq, Repr

/-- Solution::sheet_count. -/
def Solution.sheet_count (sol : Solution) : Nat := sol.sheets.length

/-- FreeRect (src/guillotine.rs). -/
structure FreeRect where
  x : Nat
  y : Nat
  rect : Rect
deriving DecidableEq, Repr

/-- GuillotineBin (src/guillotine.rs). -/
structure GuillotineBin where
  stock : Rect
  kerf : Nat
  cut_direction : CutDirection
  free_rects : List FreeRect
  placements : List Placement
deriving DecidableEq, Repr

/-- ScoreStrategy (src/guillotine.rs). -/
inductive ScoreStrategy
  | BestAreaFit
  | BestShortSideFit
  | BestLongSideFit
deriving DecidableEq, Repr

/-- ScoredPlacement (src/guillotine.rs). -/
structure ScoredPlacement where
  free_idx : Nat
  rotated : Bool
  score : Nat × Nat
deriving DecidableEq, Repr

/-- GuillotineBin::new: one free rect covering the whole stock. -/
def GuillotineBin.new (stock : Rect) (kerf : Nat) (cut_direction : CutDirection) :
    GuillotineBin :=
  ⟨stock, kerf, cut_direction, [⟨0, 0, stock⟩], []⟩

/-- GuillotineBin::used_area. -/
def GuillotineBin.used_area (bin : GuillotineBin) : Nat :=
  (bin.placements.map (fun p => p.rect.area)).sum

/-- Lexicographic strict order on score pairs: the derived PartialOrd on
a Rust (u64, u64) tuple. -/
def scoreLt (a b : Nat × Nat) : Bool :=
  decide (a.1 < b.1 ∨ (a.1 = b.1 ∧ a.2 < b.2))

/-- GuillotineBin::score (src/guillotine.rs lines 96-119).  Every subtraction
is guarded by fits_in at the call sites, so the operands never underflow. -/
def GuillotineBin.score (piece free : Rect) (strategy : ScoreStrategy) : Nat × Nat :=
  match strategy with
  | .BestAreaFit =>
    (free.area - piece.area,
     min (free.length - piece.length) (free.width - piece.width))
  | .BestShortSideFit =>
    (min (free.length - piece.length) (free.width - piece.width),
     max (free.length - piece.length) (free.width - piece.width))
  | .BestLongSideFit =>
    (max (free.length - piece.length) (free.width - piece.width),
     min (free.length - piece.length) (free.width - piece.width))

/-- The candidate update of the find_best loop: keep the new candidate when
there is no best yet or when its score is strictly smaller (first-found wins
ties).  The source inlines this code once per orientation. -/
def considerCandidate (idx : Nat) (r : Bool) (s : Nat × Nat)
    (best : Option ScoredPlacement) : Option ScoredPlacement :=
  match best with
  | none => some ⟨idx, r, s⟩
  | some b => if scoreLt s b.score then some ⟨idx, r, s⟩ else best

/-- The body of the find_best loop (src/guillotine.rs lines 65-91), indexing
the free rects from idx and keeping the strictly best-scoring candidate. -/
def GuillotineBin.find_best_aux (piece : Rect) (strategy : ScoreStrategy)
    (try_normal try_rotated : Bool) :
    List FreeRect → Nat → Option ScoredPlacement → Option ScoredPlacement
  | [], _, best => best
  | free :: rest, idx, best =>
    let best1 :=
      if try_normal && piece.fits_in free.rect then
        considerCandidate idx false (GuillotineBin.score piece free.rect strategy) best
      else best
    let best2 :=
      if try_rotated && piece.rotated.fits_in free.rect then
        considerCandidate idx true (GuillotineBin.score piece.rotated free.rect strategy) best1
      else best1
    GuillotineBin.find_best_aux piece strategy try_normal try_rotated rest (idx + 1) best2

/-- GuillotineBin::find_best. -/
def GuillotineBin.find_best (bin : GuillotineBin) (piece : Rect)
    (rotation : RotationConstraint) (strategy : ScoreStrategy) :
    Option ScoredPlacement :=
  GuillotineBin.find_best_aux piece strategy
    (decide (rotation ≠ RotationConstraint.ForceRotate))
    (decide (rotation ≠ RotationConstraint.NoRotate))
    bin.free_rects 0 none

/-- Vec::swap_remove: replace the element at i with the last element and
drop the last.  (On the empty list the source panics; unused.) -/
def swapRemove {α : Type} (l : List α) (i : Nat) : List α :=
  match l.getLast? with
  | none => l
  | some z => (l.set i z).dropLast

/-- GuillotineBin::split (src/guillotine.rs lines 145-201).  Nat subtraction
is exactly u32::saturating_sub. -/
def GuillotineBin.split (bin : GuillotineBin) (free : FreeRect) (placed : Rect) :
    GuillotineBin :=
  let right_l := free.rect.length - (placed.length + bin.kerf)
  let bottom_w := free.rect.width - (placed.width + bin.kerf)
  if 0 < right_l ∧ 0 < bottom_w then
    let split_horizontally : Bool :=
      match bin.cut_direction with
      | .Auto => decide (free.rect.length - placed.length < free.rect.width - placed.width)
      | .AlongLength => true
      | .AlongWidth => false
    if split_horizontally then
      { bin with free_rects := bin.free_rects ++
          [⟨free.x + placed.length + bin.kerf, free.y, ⟨right_l, placed.width⟩⟩,
           ⟨free.x, free.y + placed.width + bin.kerf, ⟨free.rect.length, bottom_w⟩⟩] }
    else
      { bin with free_rects := bin.free_rects ++
          [⟨free.x + placed.length + bin.kerf, free.y, ⟨right_l, free.rect.width⟩⟩,
           ⟨free.x, free.y + placed.width + bin.kerf, ⟨placed.length, bottom_w⟩⟩] }
  else if 0 < right_l then
    { bin with free_rects := bin.free_rects ++
        [⟨free.x + placed.length + bin.kerf, free.y, ⟨right_l, free.rect.width⟩⟩] }
  else if 0 < bottom_w then
    { bin with free_rects := bin.free_rects ++
        [⟨free.x, free.y + placed.width + bin.kerf, ⟨free.rect.length, bottom_w⟩⟩] }
  else bin

/-- GuillotineBin::try_merge (src/guillotine.rs lines 222-263). -/
def GuillotineBin.try_merge (a b : FreeRect) (cut_direction : CutDirection) :
    Option FreeRect :=
  if cut_direction ≠ CutDirection.AlongWidth ∧ a.y = b.y ∧
      a.rect.width = b.rect.width ∧ a.x + a.rect.length = b.x then
    some ⟨a.x, a.y, ⟨a.rect.length + b.rect.length, a.rect.width⟩⟩
  else if cut_direction ≠ CutDirection.AlongWidth ∧ a.y = b.y ∧
      a.rect.width = b.rect.width ∧ b.x + b.rect.length = a.x then
    some ⟨b.x, b.y, ⟨a.rect.length + b.rect.length, a.rect.width⟩⟩
  else if cut_direction ≠ CutDirection.AlongLength ∧ a.x = b.x ∧
      a.rect.length = b.rect.length ∧ a.y + a.rect.width = b.y then
    some ⟨a.x, a.y, ⟨a.rect.length, a.rect.width + b.rect.width⟩⟩
  else if cut_direction ≠ CutDirection.AlongLength ∧ a.x = b.x ∧
      a.rect.length = b.rect.length ∧ b.y + b.rect.width = a.y then
    some ⟨b.x, b.y, ⟨a.rect.length, a.rect.width + b.rect.width⟩⟩
  else none

/-- First index for which f yields a value, scanning the list in order. -/
def firstSome {β : Type} (f : Nat → Option β) : List Nat → Option β
  | [] => none
  | i :: rest =>
    match f i with
    | some r => some r
    | none => firstSome f rest

/-- The scan of the merge loop body (src/guillotine.rs lines 207-217): the
first pair (i, j) with i < j whose rects merge, in lexicographic scan order. -/
def find_merge_candidate (cd : CutDirection) (l : List FreeRect) :
    Option (Nat × Nat × FreeRect) :=
  firstSome (fun i =>
    firstSome (fun j =>
      match GuillotineBin.try_merge (l.getD i ⟨0, 0, ⟨0, 0⟩⟩) (l.getD j ⟨0, 0, ⟨0, 0⟩⟩) cd with
      | some m => some (i, j, m)
      | none => none)
      (List.range' (i + 1) (l.length - (i + 1))))
    (List.range l.length)

/-- The while-merged loop of merge_free_rects.  Each iteration that merges
shrinks the list by one element, so fuel equal to the initial length is
enough to reach the fixpoint (proved below as merge_loop_fixpoint). -/
def merge_loop (cd : CutDirection) : Nat → List FreeRect → List FreeRect
  | 0, l => l
  | fuel + 1, l =>
    match find_merge_candidate cd l with
    | none => l
    | some (i, j, m) => merge_loop cd fuel (swapRemove (l.set i m) j)

/-- GuillotineBin::merge_free_rects (src/guillotine.rs lines 203-220). -/
def GuillotineBin.merge_free_rects (bin : GuillotineBin) : GuillotineBin :=
  { bin with free_rects := merge_loop bin.cut_direction bin.free_rects.length bin.free_rects }

/-- GuillotineBin::place (src/guillotine.rs lines 121-143). -/
def GuillotineBin.place (bin : GuillotineBin) (scored : ScoredPlacement) (piece : Rect) :
    GuillotineBin × Placement :=
  let free := bin.free_rects.getD scored.free_idx ⟨0, 0, ⟨0, 0⟩⟩
  let placed := if scored.rotated then piece.rotated else piece
  let placement : Placement := ⟨placed, free.x, free.y, scored.rotated⟩
  let bin1 := { bin with free_rects := swapRemove bin.free_rects scored.free_idx }
  let bin2 := bin1.split free placed
  let bin3 := { bin2 with placements := bin2.placements ++ [placement] }
  (bin3.merge_free_rects, placement)

/-- Modelled from the spec: RotationConstraint::from_grain is declared in the
part of types.rs that is not under src/ (solver.rs and server.rs call it).
Spec 4.2 step 1: stock grain None or piece grain Auto gives Free when rotation
is allowed and NoRotate otherwise; agreeing grain directions give NoRotate;
disagreeing directions give ForceRotate. -/
def RotationConstraint.from_grain (stock_grain : StockGrain) (piece_grain : PieceGrain)
    (allow_rotate : Bool) : RotationConstraint :=
  match stock_grain, piece_grain with
  | .None, _ => if allow_rotate then .Free else .NoRotate
  | _, .Auto => if allow_rotate then .Free else .NoRotate
  | .AlongLength, .Length => .NoRotate
  | .AlongWidth, .Width => .NoRotate
  | .AlongLength, .Width => .ForceRotate
  | .AlongWidth, .Length => .ForceRotate

/-- Modelled from the spec: RotationConstraint::with_cut_direction is declared
in the part of types.rs that is not under src/.  Spec 4.2 steps 2-3: only a
Free result is biased, only for non-square pieces; AlongLength upgrades to
ForceRotate when length < width and to NoRotate when width < length;
AlongWidth is symmetric; Auto leaves Free. -/
def RotationConstraint.with_cut_direction (rc : RotationConstraint)
    (cut_direction : CutDirection) (piece : Rect) : RotationConstraint :=
  match rc with
  | .Free =>
    match cut_direction with
    | .Auto => .Free
    | .AlongLength =>
      if piece.length < piece.width then .ForceRotate
      else if piece.width < piece.length then .NoRotate
      else .Free
    | .AlongWidth =>
      if piece.width < piece.length then .ForceRotate
      else if piece.length < piece.width then .NoRotate
      else .Free
  | r => r

/-- Solver (src/solver.rs). -/
structure Solver where
  stock : Rect
  kerf : Nat
  cut_direction : CutDirection
  stock_grain : StockGrain
  demands : List Demand

/-- Stable insertion of one piece into a list sorted by descending area:
an element stays in front exactly when its area is at least the new one,
so ties keep their original order. -/
def insertDescArea (x : Rect × RotationConstraint) :
    List (Rect × RotationConstraint) → List (Rect × RotationConstraint)
  | [] => [x]
  | y :: ys => if x.1.area ≤ y.1.area then y :: insertDescArea x ys else x :: y :: ys

/-- Stable sort by descending area, modelling Vec::sort_by with comparator
b.area.cmp(a.area) (a stable sort; stable sorts of the same list under the
same total preorder are extensionally equal). -/
def sortDescArea (l : List (Rect × RotationConstraint)) :
    List (Rect × RotationConstraint) :=
  l.foldl (fun acc x => insertDescArea x acc) []

/-- Solver::expand_demands (src/solver.rs lines 53-66). -/
def Solver.expand_demands (s : Solver) : List (Rect × RotationConstraint) :=
  let pieces := s.demands.flatMap (fun d =>
    let rotation := (RotationConstraint.from_grain s.stock_grain d.grain
        d.allow_rotate).with_cut_direction s.cut_direction d.rect
    List.replicate d.qty (d.rect, rotation))
  sortDescArea pieces

/-- Placeholder bin used as default for list indexing that the source
performs with a panicking index known to be in bounds. -/
def dfltBin : GuillotineBin := ⟨⟨0, 0⟩, 0, .Auto, [], []⟩

/-- The bin-selection loop of greedy_solve (src/solver.rs lines 106-113):
the index of the open bin with the strictly smallest find_best score,
first-found winning ties. -/
def pick_bin_aux (piece : Rect) (rotation : RotationConstraint) (strategy : ScoreStrategy) :
    List GuillotineBin → Nat → Option (Nat × (Nat × Nat)) → Option (Nat × (Nat × Nat))
  | [], _, best => best
  | bin :: rest, bi, best =>
    let best' :=
      match bin.find_best piece rotation strategy with
      | some scored =>
        match best with
        | none => some (bi, scored.score)
        | some pr => if scoreLt scored.score pr.2 then some (bi, scored.score) else best
      | none => best
    pick_bin_aux piece rotation strategy rest (bi + 1) best'

/-- One iteration of the greedy placement loop (src/solver.rs lines 101-127).
none models the expect panic when a piece fits no new empty bin. -/
def Solver.greedy_step (s : Solver) (strategy : ScoreStrategy) (direction : CutDirection)
    (bins : List GuillotineBin) (pr : Rect × RotationConstraint) :
    Option (List GuillotineBin) :=
  match pick_bin_aux pr.1 pr.2 strategy bins 0 none with
  | some best =>
    match (bins.getD best.1 dfltBin).find_best pr.1 pr.2 strategy with
    | some scored => some (bins.set best.1 ((bins.getD best.1 dfltBin).place scored pr.1).1)
    | none => none
  | none =>
    let bin := GuillotineBin.new s.stock s.kerf direction
    match bin.find_best pr.1 pr.2 strategy with
    | some scored => some (bins ++ [(bin.place scored pr.1).1])
    | none => none

/-- Solver::greedy_solve as a loop over the piece list. -/
def Solver.greedy_loop (s : Solver) (strategy : ScoreStrategy) (direction : CutDirection) :
    List (Rect × RotationConstraint) → List GuillotineBin → Option (List GuillotineBin)
  | [], bins => some bins
  | pr :: rest, bins =>
    match s.greedy_step strategy direction bins pr with
    | some binsNext => s.greedy_loop strategy direction rest binsNext
    | none => none

/-- Solver::bins_to_solution (src/solver.rs lines 255-272). -/
def Solver.bins_to_solution (s : Solver) (bins : List GuillotineBin) : Solution :=
  { sheets := bins.map (fun bin =>
      { placements := bin.placements, waste_area := s.stock.area - bin.used_area }),
    stock := s.stock }

/-- The direction list of the greedy phase (src/solver.rs lines 76-79). -/
def Solver.greedy_directions (s : Solver) : List CutDirection :=
  match s.cut_direction with
  | .Auto => [.AlongLength, .AlongWidth]
  | d => [d]

/-- The three scoring strategies tried by greedy_best. -/
def strategiesList : List ScoreStrategy :=
  [.BestAreaFit, .BestShortSideFit, .BestLongSideFit]

/-- The direction-major strategy loop of greedy_best (src/solver.rs
lines 81-90), keeping the solution with strictly fewer sheets. -/
def Solver.greedy_best_loop (s : Solver) (pieces : List (Rect × RotationConstraint)) :
    List (CutDirection × ScoreStrategy) → Option Solution → Option Solution
  | [], best => best
  | (dir, strategy) :: rest, best =>
    match s.greedy_loop strategy dir pieces [] with
    | none => none
    | some bins =>
      let sol := s.bins_to_solution bins
      let bestNext :=
        match best with
        | none => some sol
        | some b => if sol.sheets.length < b.sheets.length then some sol else some b
      s.greedy_best_loop pieces rest bestNext

/-- Solver::greedy_best. -/
def Solver.greedy_best (s : Solver) (pieces : List (Rect × RotationConstraint)) :
    Option Solution :=
  s.greedy_best_loop pieces
    (s.greedy_directions.flatMap (fun d => strategiesList.map (fun st => (d, st)))) none

/-- Solver::bb_directions (src/solver.rs lines 132-137). -/
def Solver.bb_directions (s : Solver) : List CutDirection :=
  match s.cut_direction with
  | .Auto => [.AlongLength, .AlongWidth]
  | d => [d]

/-- Solver::bb_recurse (src/solver.rs lines 167-253).  The state is the pair
(best_bins, best_count).  Recursion is driven by the remaining piece list;
the fuel argument only makes the recursion structural and is called with at
least the list length, so the fuel-zero branch is never reached. -/
def Solver.bb_recurse (s : Solver) :
    Nat → List (Rect × RotationConstraint) → List GuillotineBin →
    Option (List GuillotineBin) × Nat → Option (List GuillotineBin) × Nat
  | _, [], bins, st =>
    if bins.length < st.2 then (some bins, bins.length) else st
  | 0, _ :: _, _, st => st
  | fuel + 1, (piece, rotation) :: rest, bins, st =>
    if st.2 ≤ bins.length then st
    else
      let remaining_area := (((piece, rotation) :: rest).map (fun pr => pr.1.area)).sum
      let stock_area := s.stock.area
      let min_extra_bins :=
        if 0 < remaining_area then (remaining_area + stock_area - 1) / stock_area else 0
      let open_free_area :=
        (bins.map (fun b => (b.free_rects.map (fun f => f.rect.area)).sum)).sum
      let needed :=
        if open_free_area < remaining_area then
          bins.length + ((remaining_area - open_free_area) + stock_area - 1) / stock_area
        else bins.length
      let lower_bound := max needed (bins.length + (min_extra_bins - bins.length))
      if st.2 ≤ lower_bound then st
      else
        let orientations : List Bool :=
          match rotation with
          | .Free => if piece.length ≠ piece.width then [false, true] else [false]
          | .ForceRotate => [true]
          | .NoRotate => [false]
        let st1 := (List.range bins.length).foldl (fun stA bi =>
          orientations.foldl (fun stB rotated =>
            let try_piece := if rotated then piece.rotated else piece
            match (bins.getD bi dfltBin).find_best try_piece RotationConstraint.NoRotate
                ScoreStrategy.BestAreaFit with
            | some scored =>
              s.bb_recurse fuel rest
                (bins.set bi ((bins.getD bi dfltBin).place scored try_piece).1) stB
            | none => stB) stA) st
        if bins.length + 1 < st1.2 then
          s.bb_directions.foldl (fun stA dir =>
            let new_bin := GuillotineBin.new s.stock s.kerf dir
            match new_bin.find_best piece rotation ScoreStrategy.BestAreaFit with
            | some scored =>
              s.bb_recurse fuel rest (bins ++ [(new_bin.place scored piece).1]) stA
            | none => stA) st1
        else st1

/-- Solver::branch_and_bound (src/solver.rs lines 139-165). -/
def Solver.branch_and_bound (s : Solver) (pieces : List (Rect × RotationConstraint))
    (upper_bound : Nat) : Solution :=
  if 20 < pieces.length then { sheets := [], stock := s.stock }
  else
    match (s.bb_recurse pieces.length pieces [] (none, upper_bound)).1 with
    | some bins => s.bins_to_solution bins
    | none => { sheets := [], stock := s.stock }

/-- Solver::solve (src/solver.rs lines 31-51). -/
def Solver.solve (s : Solver) : Option Solution :=
  let pieces := s.expand_demands
  if pieces.isEmpty then some { sheets := [], stock := s.stock }
  else
    match s.greedy_best pieces with
    | none => none
    | some greedy =>
      let bb := s.branch_and_bound pieces greedy.sheets.length
      if ¬bb.sheets.isEmpty ∧ bb.sheets.length < greedy.sheets.length then some bb
      else some greedy

/-! Geometric predicates used by the invariants and the claims. -/

/-- Both dimensions positive. -/
abbrev rectPos (r : Rect) : Prop := 0 < r.length ∧ 0 < r.width

/-- The box at (x, y) with extents r lies inside the stock S. -/
abbrev inStock (S : Rect) (x y : Nat) (r : Rect) : Prop :=
  x + r.length ≤ S.length ∧ y + r.width ≤ S.width

/-- Open-interval overlap in both axes of two boxes. -/
abbrev overlapN (x1 y1 : Nat) (r1 : Rect) (x2 y2 : Nat) (r2 : Rect) : Prop :=
  x1 < x2 + r2.length ∧ x2 < x1 + r1.length ∧ y1 < y2 + r2.width ∧ y2 < y1 + r1.width

/-- Two placements do not overlap. -/
abbrev plNoOverlap (a b : Placement) : Prop := ¬ overlapN a.x a.y a.rect b.x b.y b.rect

/-- Two free rects do not overlap. -/
abbrev frNoOverlap (a b : FreeRect) : Prop := ¬ overlapN a.x a.y a.rect b.x b.y b.rect

/-- A free rect and a placement do not overlap. -/
abbrev frplNoOverlap (f : FreeRect) (p : Placement) : Prop :=
  ¬ overlapN f.x f.y f.rect p.x p.y p.rect

/-- The free-rect side of the bin invariant, relative to a placement list. -/
def FreesOk (S : Rect) (ps : List Placement) (fs : List FreeRect) : Prop :=
  (∀ f ∈ fs, inStock S f.x f.y f.rect ∧ rectPos f.rect) ∧
  fs.Pairwise frNoOverlap ∧
  (∀ f ∈ fs, ∀ p ∈ ps, frplNoOverlap f p)

/-- The full geometric invariant of a guillotine bin for stock S. -/
def BinOk (S : Rect) (bin : GuillotineBin) : Prop :=
  (∀ p ∈ bin.placements, inStock S p.x p.y p.rect ∧ rectPos p.rect) ∧
  bin.placements.Pairwise plNoOverlap ∧
  FreesOk S bin.placements bin.free_rects

/-- Every bin of the list satisfies the invariant. -/
def BinsOk (S : Rect) (bins : List GuillotineBin) : Prop := ∀ b ∈ bins, BinOk S b

/-- Total number of placements across a bin list. -/
def totalPl (bins : List GuillotineBin) : Nat :=
  (bins.map (fun b => b.placements.length)).sum

/-- Total placed area across a bin list. -/
def totalArea (bins : List GuillotineBin) : Nat :=
  (bins.map GuillotineBin.used_area).sum

/-- A piece is placeable on an empty sheet under its rotation constraint. -/
abbrev Placeable (stock : Rect) (pr : Rect × RotationConstraint) : Prop :=
  (pr.2 ≠ RotationConstraint.ForceRotate ∧ pr.1.fits_in stock = true) ∨
  (pr.2 ≠ RotationConstraint.NoRotate ∧ pr.1.rotated.fits_in stock = true)

/-- A remainder free rect produced by a split of free: inside free, positive,
and beyond the placed piece in at least one axis. -/
def RemainderOk (free : FreeRect) (placed : Rect) (g : FreeRect) : Prop :=
  free.x ≤ g.x ∧ g.x + g.rect.length ≤ free.x + free.rect.length ∧
  free.y ≤ g.y ∧ g.y + g.rect.width ≤ free.y + free.rect.width ∧
  rectPos g.rect ∧
  (free.x + placed.length ≤ g.x ∨ free.y + placed.width ≤ g.y)

/-- The shape of a length-wise merge of u (left) and v (right). -/
def MergeH (u v m : FreeRect) : Prop :=
  u.y = v.y ∧ u.rect.width = v.rect.width ∧ u.x + u.rect.length = v.x ∧
  m.x = u.x ∧ m.y = u.y ∧
  m.rect.length = u.rect.length + v.rect.length ∧ m.rect.width = u.rect.width

/-- The shape of a width-wise merge of u (top) and v (bottom). -/
def MergeV (u v m : FreeRect) : Prop :=
  u.x = v.x ∧ u.rect.length = v.rect.length ∧ u.y + u.rect.width = v.y ∧
  m.x = u.x ∧ m.y = u.y ∧
  m.rect.length = u.rect.length ∧ m.rect.width = u.rect.width + v.rect.width

/-- Membership of a point of the sheet in a free rect (used to state that a
merged rect covers exactly the union of the two merged rects). -/
abbrev inFreeRect (f : FreeRect) (px py : Nat) : Prop :=
  f.x ≤ px ∧ px < f.x + f.rect.length ∧ f.y ≤ py ∧ py < f.y + f.rect.width

/-- Ceiling division, as u64::div_ceil for a positive divisor. -/
def ceilDiv (a b : Nat) : Nat := (a + b - 1) / b

/-- Lattice cells covered by a placement, for the area-bound argument. -/
def plCells (p : Placement) : Finset (Nat × Nat) :=
  Finset.Ico p.x (p.x + p.rect.length) ×ˢ Finset.Ico p.y (p.y + p.rect.width)

/-- Union of the cells of a placement list. -/
def plCellsUnion (ps : List Placement) : Finset (Nat × Nat) :=
  ps.foldr (fun p acc => plCells p ∪ acc) ∅

/-- The failing input of claim C1: stock 9 x 1, kerf 0, cut direction
AlongLength, no stock grain, demands (1 x 4) x2, (1 x 3) x2, (1 x 2) x2, all
rotatable with Auto grain.  Every expanded piece resolves to ForceRotate. -/
def c1Input : Solver :=
  ⟨⟨9, 1⟩, 0, CutDirection.AlongLength, StockGrain.None,
    [⟨⟨1, 4⟩, 2, true, PieceGrain.Auto⟩,
     ⟨⟨1, 3⟩, 2, true, PieceGrain.Auto⟩,
     ⟨⟨1, 2⟩, 2, true, PieceGrain.Auto⟩]⟩

/-- The kerf-monotonicity counterexample input of claim C7 at kerf k:
stock 8 x 9, cut direction AlongWidth, no grain, pieces 6 x 6, 8 x 1, 2 x 6,
quantity one each, rotation disabled. -/
def c7Input (k : Nat) : Solver :=
  ⟨⟨8, 9⟩, k, CutDirection.AlongWidth, StockGrain.None,
    [⟨⟨6, 6⟩, 1, false, PieceGrain.Auto⟩,
     ⟨⟨8, 1⟩, 1, false, PieceGrain.Auto⟩,
     ⟨⟨2, 6⟩, 1, false, PieceGrain.Auto⟩]⟩

/-- The solver with its kerf replaced: the claim C7 comparison varies only
the kerf. -/
def withKerf (s : Solver) (k : Nat) : Solver :=
  ⟨s.stock, k, s.cut_direction, s.stock_grain, s.demands⟩

/-- A small workable input for the witnesses: stock 5 x 5, kerf 0, one
3 x 2 piece. -/
def wInput : Solver :=
  ⟨⟨5, 5⟩, 0, CutDirection.Auto, StockGrain.None,
    [⟨⟨3, 2⟩, 1, true, PieceGrain.Auto⟩]⟩

/-- The solution Solver.solve returns on wInput. -/
def wSol : Solution :=
  ⟨[⟨[⟨⟨3, 2⟩, 0, 0, false⟩], 19⟩], ⟨5, 5⟩⟩

/-- Witness input for the amended kerf claim: stock 4 x 4 and a single
4 x 4 piece, so one sheet attains the area lower bound. -/
def w7base : Solver :=
  ⟨⟨4, 4⟩, 0, CutDirection.Auto, StockGrain.None,
    [⟨⟨4, 4⟩, 1, false, PieceGrain.Auto⟩]⟩

/-- The solution returned on w7base at kerf 0 and also at kerf 1. -/
def w7sol : Solution :=
  ⟨[⟨[⟨⟨4, 4⟩, 0, 0, false⟩], 0⟩], ⟨4, 4⟩⟩

/-! List surgery lemmas for swap_remove and in-place update. -/

theorem set_self_eq {α : Type} (l : List α) (i : Nat) (h : i < l.length) :
    l.set i l[i] = l := by
  apply List.ext_getElem
  · simp
  · intro n h1 h2
    rw [List.getElem_set]
    split
    · subst i; rfl
    · rfl

theorem set_perm_cons_eraseIdx {α : Type} (l : List α) (i : Nat) (a : α)
    (h : i < l.length) : (l.set i a).Perm (a :: l.eraseIdx i) := by
  induction l generalizing i with
  | nil => simp at h
  | cons x xs ih =>
    cases i with
    | zero => simp [List.set, List.eraseIdx]
    | succ n =>
      simp only [List.set, List.eraseIdx]
      exact ((ih n (by simpa using h)).cons x).trans (List.Perm.swap a x _)

theorem dropLast_set_comm {α : Type} (l : List α) (i : Nat) (a : α)
    (h : i + 1 < l.length) : (l.set i a).dropLast = l.dropLast.set i a := by
  induction l generalizing i with
  | nil => simp at h
  | cons x xs ih =>
    cases i with
    | zero =>
      cases xs with
      | nil => simp at h
      | cons y ys => simp [List.set]
    | succ n =>
      cases xs with
      | nil => simp at h
      | cons y ys =>
        simp only [List.set, List.dropLast]
        rw [List.dropLast_cons_of_ne_nil]
        · rw [ih n (by simpa using h)]
        · intro hc
          have : ((y :: ys).set n a).length = 0 := by rw [hc]; rfl
          simp at this

theorem dropLast_eq_eraseIdx_last {α : Type} (l : List α) :
    l.dropLast = l.eraseIdx (l.length - 1) := by
  induction l with
  | nil => rfl
  | cons x xs ih =>
    cases xs with
    | nil => rfl
    | cons y ys =>
      simp only [List.dropLast, List.length, List.eraseIdx]
      rw [ih]
      congr 1

theorem eraseIdx_set_comm {α : Type} (l : List α) (i j : Nat) (a : α) (hij : i < j) :
    (l.set i a).eraseIdx j = (l.eraseIdx j).set i a := by
  induction l generalizing i j with
  | nil => rfl
  | cons x xs ih =>
    cases j with
    | zero => omega
    | succ m =>
      cases i with
      | zero => simp [List.set, List.eraseIdx]
      | succ n =>
        simp only [List.set, List.eraseIdx]
        rw [ih n m (by omega)]

theorem swapRemove_perm {α : Type} (l : List α) (i : Nat) (h : i < l.length) :
    (swapRemove l i).Perm (l.eraseIdx i) := by
  have hne : l ≠ [] := by intro hc; subst hc; simp at h
  have hz : l.getLast? = some (l.getLast hne) := List.getLast?_eq_getLast l hne
  set z := l.getLast hne with hzdef
  have hred : swapRemove l i = (l.set i z).dropLast := by unfold swapRemove; rw [hz]
  rw [hred]
  have hzel : z = l[l.length - 1] := List.getLast_eq_getElem l hne
  by_cases hi : i = l.length - 1
  · subst hi
    rw [hzel, set_self_eq l (l.length - 1) (by omega), dropLast_eq_eraseIdx_last]
  · have hi2 : i + 1 < l.length := by omega
    rw [dropLast_set_comm l i z hi2]
    have hlen : i < l.dropLast.length := by simp [List.length_dropLast]; omega
    refine (set_perm_cons_eraseIdx l.dropLast i z hlen).trans ?_
    rw [dropLast_eq_eraseIdx_last]
    obtain ⟨A, hA⟩ := (List.getLast?_eq_some_iff).mp hz
    rw [hA]
    have h1 : (A ++ [z]).eraseIdx ((A ++ [z]).length - 1) = A := by
      simp [List.eraseIdx_append_of_length_le]
    rw [h1]
    have hiA : i < A.length := by
      rw [hA] at h hi
      simp at h hi ⊢
      omega
    rw [List.eraseIdx_append_of_lt_length hiA [z]]
    simpa using (@List.perm_middle α z (A.eraseIdx i) []).symm

theorem swapRemove_length {α : Type} (l : List α) (i : Nat) (h : i < l.length) :
    (swapRemove l i).length = l.length - 1 := by
  rw [(swapRemove_perm l i h).length_eq, List.length_eraseIdx]
  simp [h]

theorem mem_of_mem_swapRemove_set {α : Type} (l : List α) (i j : Nat) (m x : α)
    (hx : x ∈ swapRemove (l.set i m) j) : x = m ∨ x ∈ l := by
  by_cases hj : j < (l.set i m).length
  · have := ((swapRemove_perm (l.set i m) j hj).mem_iff).mp hx
    have hx2 : x ∈ l.set i m := (List.eraseIdx_sublist (l.set i m) j).mem this
    rcases List.mem_or_eq_of_mem_set hx2 with h1 | h2
    · exact Or.inr h1
    · exact Or.inl h2
  · unfold swapRemove at hx
    match hz : (l.set i m).getLast? with
    | none =>
      rw [hz] at hx
      rcases List.mem_or_eq_of_mem_set hx with h1 | h2
      · exact Or.inr h1
      · exact Or.inl h2
    | some z =>
      rw [hz] at hx
      have hx2 : x ∈ (l.set i m).set j z := (List.dropLast_sublist _).mem hx
      rcases List.mem_or_eq_of_mem_set hx2 with h1 | h2
      · rcases List.mem_or_eq_of_mem_set h1 with h3 | h4
        · exact Or.inr h3
        · exact Or.inl h4
      · subst h2
        have : (l.set i m).getLast? = some x := hz
        rw [List.getLast?_eq_some_iff] at this
        obtain ⟨ys, hys⟩ := this
        have : x ∈ l.set i m := by rw [hys]; simp
        rcases List.mem_or_eq_of_mem_set this with h3 | h4
        · exact Or.inr h3
        · exact Or.inl h4

/-! Specification lemmas for find_best. -/

theorem considerCandidate_ne_none (idx : Nat) (r : Bool) (s : Nat × Nat)
    (best : Option ScoredPlacement) : considerCandidate idx r s best ≠ none := by
  unfold considerCandidate
  cases best
  · simp
  · simp only
    split <;> simp

theorem considerCandidate_some (idx : Nat) (r : Bool) (s : Nat × Nat)
    (best : Option ScoredPlacement) (sp : ScoredPlacement)
    (h : considerCandidate idx r s best = some sp) :
    sp = ⟨idx, r, s⟩ ∨ best = some sp := by
  unfold considerCandidate at h
  cases best with
  | none => exact Or.inl (Option.some_inj.mp h).symm
  | some b =>
    simp only at h
    split at h
    · exact Or.inl (Option.some_inj.mp h).symm
    · exact Or.inr h

theorem find_best_aux_ne_none (piece : Rect) (strat : ScoreStrategy) (tn tr : Bool)
    (fs : List FreeRect) (idx : Nat) (b : ScoredPlacement) :
    GuillotineBin.find_best_aux piece strat tn tr fs idx (some b) ≠ none := by
  induction fs generalizing idx b with
  | nil => simp [GuillotineBin.find_best_aux]
  | cons f rest ih =>
    simp only [GuillotineBin.find_best_aux]
    set best1 := if tn && piece.fits_in f.rect then
        considerCandidate idx false (GuillotineBin.score piece f.rect strat) (some b)
      else some b with hb1
    have h1 : best1 ≠ none := by
      rw [hb1]; split
      · exact considerCandidate_ne_none _ _ _ _
      · simp
    match hb1v : best1 with
    | none => exact absurd rfl (hb1v ▸ h1)
    | some b1 =>
      set best2 := if tr && piece.rotated.fits_in f.rect then
          considerCandidate idx true (GuillotineBin.score piece.rotated f.rect strat) (some b1)
        else some b1 with hb2
      have h2 : best2 ≠ none := by
        rw [hb2]; split
        · exact considerCandidate_ne_none _ _ _ _
        · simp
      match hb2v : best2 with
      | none => exact absurd rfl (hb2v ▸ h2)
      | some b2 => exact ih (idx + 1) b2

theorem find_best_aux_none_iff (piece : Rect) (strat : ScoreStrategy) (tn tr : Bool)
    (fs : List FreeRect) (idx : Nat) (acc : Option ScoredPlacement) :
    GuillotineBin.find_best_aux piece strat tn tr fs idx acc = none ↔
      (acc = none ∧ ∀ f ∈ fs,
        (tn = true → piece.fits_in f.rect = false) ∧
        (tr = true → piece.rotated.fits_in f.rect = false)) := by
  induction fs generalizing idx acc with
  | nil => simp [GuillotineBin.find_best_aux]
  | cons f rest ih =>
    simp only [GuillotineBin.find_best_aux]
    rw [ih]
    constructor
    · rintro ⟨h2, hrest⟩
      split at h2
      · exact absurd h2 (considerCandidate_ne_none _ _ _ _)
      · rename_i hcr
        split at h2
        · exact absurd h2 (considerCandidate_ne_none _ _ _ _)
        · rename_i hcn
          refine ⟨h2, ?_⟩
          intro g hg
          rw [List.mem_cons] at hg
          rcases hg with hg | hg
          · subst hg
            constructor
            · intro htn
              cases hfn : piece.fits_in g.rect
              · rfl
              · exact absurd (by simp [htn, hfn] : (tn && piece.fits_in g.rect) = true) hcn
            · intro htr
              cases hfr : piece.rotated.fits_in g.rect
              · rfl
              · exact absurd (by simp [htr, hfr] : (tr && piece.rotated.fits_in g.rect) = true) hcr
          · exact hrest g hg
    · rintro ⟨hacc, hall⟩
      subst hacc
      have hf := hall f (List.mem_cons_self f rest)
      have hn : (if tn && piece.fits_in f.rect then
          considerCandidate idx false (GuillotineBin.score piece f.rect strat) none
          else none) = none := by
        split
        · rename_i hc
          rw [Bool.and_eq_true] at hc
          rw [hf.1 hc.1] at hc
          exact absurd hc.2 (by simp)
        · rfl
      rw [hn]
      have hn2 : (if tr && piece.rotated.fits_in f.rect then
          considerCandidate idx true (GuillotineBin.score piece.rotated f.rect strat) none
          else none) = none := by
        split
        · rename_i hc
          rw [Bool.and_eq_true] at hc
          rw [hf.2 hc.1] at hc
          exact absurd hc.2 (by simp)
        · rfl
      rw [hn2]
      refine ⟨rfl, ?_⟩
      intro g hg
      exact hall g (List.mem_cons_of_mem f hg)

theorem find_best_aux_some (piece : Rect) (strat : ScoreStrategy) (tn tr : Bool)
    (fs : List FreeRect) (idx : Nat) (acc : Option ScoredPlacement) (sp : ScoredPlacement)
    (h : GuillotineBin.find_best_aux piece strat tn tr fs idx acc = some sp) :
    acc = some sp ∨ ∃ k, ∃ hk : k < fs.length, sp.free_idx = idx + k ∧
      ((sp.rotated = false ∧ tn = true ∧ piece.fits_in (fs.get ⟨k, hk⟩).rect = true) ∨
       (sp.rotated = true ∧ tr = true ∧ piece.rotated.fits_in (fs.get ⟨k, hk⟩).rect = true)) := by
  induction fs generalizing idx acc with
  | nil => exact Or.inl h
  | cons f rest ih =>
    simp only [GuillotineBin.find_best_aux] at h
    have hbest1 : ∀ b1 : Option ScoredPlacement,
        (if tn && piece.fits_in f.rect then
          considerCandidate idx false (GuillotineBin.score piece f.rect strat) acc
          else acc) = b1 → b1 = some sp →
        acc = some sp ∨ ∃ k, ∃ hk : k < (f :: rest).length, sp.free_idx = idx + k ∧
          ((sp.rotated = false ∧ tn = true ∧ piece.fits_in ((f :: rest).get ⟨k, hk⟩).rect = true) ∨
           (sp.rotated = true ∧ tr = true ∧ piece.rotated.fits_in ((f :: rest).get ⟨k, hk⟩).rect = true)) := by
      intro b1 hdef hsp
      subst hdef
      split at hsp
      · rename_i hc
        rw [Bool.and_eq_true] at hc
        rcases considerCandidate_some _ _ _ _ _ hsp with h1 | h1
        · subst h1
          exact Or.inr ⟨0, by simp, by simp, Or.inl ⟨rfl, hc.1, hc.2⟩⟩
        · exact Or.inl h1
      · exact Or.inl hsp
    rcases ih (idx + 1) _ h with h2 | h2
    · -- best2 = some sp
      split at h2
      · rename_i hc
        rw [Bool.and_eq_true] at hc
        rcases considerCandidate_some _ _ _ _ _ h2 with h1 | h1
        · subst h1
          exact Or.inr ⟨0, by simp, by simp, Or.inr ⟨rfl, hc.1, hc.2⟩⟩
        · exact hbest1 _ rfl h1
      · exact hbest1 _ rfl h2
    · obtain ⟨k, hk, hidx, hcases⟩ := h2
      refine Or.inr ⟨k + 1, by simpa using Nat.succ_lt_succ hk, by omega, ?_⟩
      simpa using hcases

theorem find_best_none_iff (bin : GuillotineBin) (piece : Rect)
    (rotation : RotationConstraint) (strategy : ScoreStrategy) :
    bin.find_best piece rotation strategy = none ↔
      ∀ f ∈ bin.free_rects,
        (rotation ≠ RotationConstraint.ForceRotate → piece.fits_in f.rect = false) ∧
        (rotation ≠ RotationConstraint.NoRotate → piece.rotated.fits_in f.rect = false) := by
  unfold GuillotineBin.find_best
  rw [find_best_aux_none_iff]
  simp only [true_and, decide_eq_true_eq]

theorem find_best_some_spec (bin : GuillotineBin) (piece : Rect)
    (rotation : RotationConstraint) (strategy : ScoreStrategy) (sp : ScoredPlacement)
    (h : bin.find_best piece rotation strategy = some sp) :
    ∃ hk : sp.free_idx < bin.free_rects.length,
      (if sp.rotated then piece.rotated else piece).fits_in
        (bin.free_rects.get ⟨sp.free_idx, hk⟩).rect = true ∧
      (sp.rotated = true → rotation ≠ RotationConstraint.NoRotate) ∧
      (sp.rotated = false → rotation ≠ RotationConstraint.ForceRotate) := by
  unfold GuillotineBin.find_best at h
  rcases find_best_aux_some _ _ _ _ _ _ _ _ h with h1 | h1
  · exact absurd h1 (by simp)
  · obtain ⟨k, hk, hidx, hcases⟩ := h1
    have hidx0 : sp.free_idx = k := by omega
    subst hidx0
    refine ⟨hk, ?_, ?_, ?_⟩
    · rcases hcases with ⟨hr, _, hf⟩ | ⟨hr, _, hf⟩
      · rw [hr]; simpa using hf
      · rw [hr]; simpa using hf
    · intro hr hrot
      rcases hcases with ⟨hr2, _, _⟩ | ⟨_, htr, _⟩
      · rw [hr] at hr2; cases hr2
      · rw [hrot] at htr; simp at htr
    · intro hr hrot
      rcases hcases with ⟨_, htn, _⟩ | ⟨hr2, _, _⟩
      · rw [hrot] at htn; simp at htn
      · rw [hr] at hr2; cases hr2

/-! Merge lemmas. -/

theorem try_merge_some_cases (a b : FreeRect) (cd : CutDirection) (m : FreeRect)
    (h : GuillotineBin.try_merge a b cd = some m) :
    (cd ≠ CutDirection.AlongWidth ∧ (MergeH a b m ∨ MergeH b a m)) ∨
    (cd ≠ CutDirection.AlongLength ∧ (MergeV a b m ∨ MergeV b a m)) := by
  unfold GuillotineBin.try_merge at h
  split_ifs at h with h1 h2 h3 h4
  · injection h with h
    subst h
    exact Or.inl ⟨h1.1, Or.inl ⟨h1.2.1, h1.2.2.1, h1.2.2.2, rfl, rfl, rfl, rfl⟩⟩
  · injection h with h
    subst h
    refine Or.inl ⟨h2.1, Or.inr ⟨h2.2.1.symm, h2.2.2.1.symm, h2.2.2.2, rfl, rfl, ?_, ?_⟩⟩
    · simp [Nat.add_comm]
    · simp [h2.2.2.1]
  · injection h with h
    subst h
    exact Or.inr ⟨h3.1, Or.inl ⟨h3.2.1, h3.2.2.1, h3.2.2.2, rfl, rfl, rfl, rfl⟩⟩
  · injection h with h
    subst h
    refine Or.inr ⟨h4.1, Or.inr ⟨h4.2.1.symm, h4.2.2.1.symm, h4.2.2.2, rfl, rfl, ?_, ?_⟩⟩
    · simp [h4.2.2.1]
    · simp [Nat.add_comm]

theorem mergeH_bounds (S : Rect) (u v m : FreeRect) (hm : MergeH u v m)
    (hu : inStock S u.x u.y u.rect) (hv : inStock S v.x v.y v.rect) :
    inStock S m.x m.y m.rect := by
  unfold MergeH at hm; unfold inStock at *; omega

theorem mergeH_pos (u v m : FreeRect) (hm : MergeH u v m)
    (hu : rectPos u.rect) (hv : rectPos v.rect) : rectPos m.rect := by
  unfold MergeH at hm; unfold rectPos at *; omega

theorem mergeH_overlap (u v m : FreeRect) (hm : MergeH u v m) (gx gy : Nat) (gr : Rect)
    (hgl : 0 < gr.length)
    (hov : overlapN m.x m.y m.rect gx gy gr) :
    overlapN u.x u.y u.rect gx gy gr ∨ overlapN v.x v.y v.rect gx gy gr := by
  unfold MergeH at hm; unfold overlapN at *; omega

theorem mergeV_bounds (S : Rect) (u v m : FreeRect) (hm : MergeV u v m)
    (hu : inStock S u.x u.y u.rect) (hv : inStock S v.x v.y v.rect) :
    inStock S m.x m.y m.rect := by
  unfold MergeV at hm; unfold inStock at *; omega

theorem mergeV_pos (u v m : FreeRect) (hm : MergeV u v m)
    (hu : rectPos u.rect) (hv : rectPos v.rect) : rectPos m.rect := by
  unfold MergeV at hm; unfold rectPos at *; omega

theorem mergeV_overlap (u v m : FreeRect) (hm : MergeV u v m) (gx gy : Nat) (gr : Rect)
    (hgw : 0 < gr.width)
    (hov : overlapN m.x m.y m.rect gx gy gr) :
    overlapN u.x u.y u.rect gx gy gr ∨ overlapN v.x v.y v.rect gx gy gr := by
  unfold MergeV at hm; unfold overlapN at *; omega

theorem try_merge_bounds (S : Rect) (a b : FreeRect) (cd : CutDirection) (m : FreeRect)
    (h : GuillotineBin.try_merge a b cd = some m)
    (ha : inStock S a.x a.y a.rect) (hb : inStock S b.x b.y b.rect) :
    inStock S m.x m.y m.rect := by
  rcases try_merge_some_cases a b cd m h with ⟨_, hc | hc⟩ | ⟨_, hc | hc⟩
  · exact mergeH_bounds S a b m hc ha hb
  · exact mergeH_bounds S b a m hc hb ha
  · exact mergeV_bounds S a b m hc ha hb
  · exact mergeV_bounds S b a m hc hb ha

theorem try_merge_pos (a b : FreeRect) (cd : CutDirection) (m : FreeRect)
    (h : GuillotineBin.try_merge a b cd = some m)
    (ha : rectPos a.rect) (hb : rectPos b.rect) : rectPos m.rect := by
  rcases try_merge_some_cases a b cd m h with ⟨_, hc | hc⟩ | ⟨_, hc | hc⟩
  · exact mergeH_pos a b m hc ha hb
  · exact mergeH_pos b a m hc hb ha
  · exact mergeV_pos a b m hc ha hb
  · exact mergeV_pos b a m hc hb ha

theorem try_merge_overlap (a b : FreeRect) (cd : CutDirection) (m : FreeRect)
    (h : GuillotineBin.try_merge a b cd = some m) (gx gy : Nat) (gr : Rect)
    (hg : rectPos gr) (hov : overlapN m.x m.y m.rect gx gy gr) :
    overlapN a.x a.y a.rect gx gy gr ∨ overlapN b.x b.y b.rect gx gy gr := by
  rcases try_merge_some_cases a b cd m h with ⟨_, hc | hc⟩ | ⟨_, hc | hc⟩
  · exact mergeH_overlap a b m hc gx gy gr hg.1 hov
  · exact (mergeH_overlap b a m hc gx gy gr hg.1 hov).symm
  · exact mergeV_overlap a b m hc gx gy gr hg.2 hov
  · exact (mergeV_overlap b a m hc gx gy gr hg.2 hov).symm

theorem firstSome_eq_none_iff {β : Type} (f : Nat → Option β) (is : List Nat) :
    firstSome f is = none ↔ ∀ i ∈ is, f i = none := by
  induction is with
  | nil => simp [firstSome]
  | cons i rest ih =>
    simp only [firstSome]
    match hf : f i with
    | some r => simp [hf]
    | none => simp [hf, ih]

theorem firstSome_eq_some {β : Type} (f : Nat → Option β) (is : List Nat) (r : β)
    (h : firstSome f is = some r) : ∃ i ∈ is, f i = some r := by
  induction is with
  | nil => cases h
  | cons i rest ih =>
    simp only [firstSome] at h
    match hf : f i with
    | some r2 =>
      rw [hf] at h
      exact ⟨i, List.mem_cons_self i rest, hf.trans h⟩
    | none =>
      rw [hf] at h
      obtain ⟨j, hj, hfj⟩ := ih h
      exact ⟨j, List.mem_cons_of_mem i hj, hfj⟩

theorem fmc_some_spec (cd : CutDirection) (l : List FreeRect) (i j : Nat) (m : FreeRect)
    (h : find_merge_candidate cd l = some (i, j, m)) :
    i < j ∧ j < l.length ∧
      GuillotineBin.try_merge (l.getD i ⟨0, 0, ⟨0, 0⟩⟩) (l.getD j ⟨0, 0, ⟨0, 0⟩⟩) cd = some m := by
  unfold find_merge_candidate at h
  obtain ⟨i2, hi2, hf⟩ := firstSome_eq_some _ _ _ h
  obtain ⟨j2, hj2, hg⟩ := firstSome_eq_some _ _ _ hf
  rw [List.mem_range] at hi2
  rw [List.mem_range'_1] at hj2
  match htm : GuillotineBin.try_merge (l.getD i2 ⟨0, 0, ⟨0, 0⟩⟩) (l.getD j2 ⟨0, 0, ⟨0, 0⟩⟩) cd with
  | some m2 =>
    rw [htm] at hg
    injection hg with hg
    rw [Prod.ext_iff] at hg
    obtain ⟨h1, hg⟩ := hg
    rw [Prod.ext_iff] at hg
    obtain ⟨h2, h3⟩ := hg
    simp only at h1 h2 h3
    subst h1; subst h2; subst h3
    exact ⟨by omega, by omega, htm⟩
  | none => rw [htm] at hg; cases hg

theorem fmc_none_spec (cd : CutDirection) (l : List FreeRect)
    (h : find_merge_candidate cd l = none) :
    ∀ i j, i < j → j < l.length →
      GuillotineBin.try_merge (l.getD i ⟨0, 0, ⟨0, 0⟩⟩) (l.getD j ⟨0, 0, ⟨0, 0⟩⟩) cd = none := by
  unfold find_merge_candidate at h
  rw [firstSome_eq_none_iff] at h
  intro i j hij hj
  have hi := h i (List.mem_range.mpr (by omega))
  rw [firstSome_eq_none_iff] at hi
  have hjmem : j ∈ List.range' (i + 1) (l.length - (i + 1)) :=
    List.mem_range'_1.mpr ⟨by omega, by omega⟩
  have hnone := hi j hjmem
  match htm : GuillotineBin.try_merge (l.getD i ⟨0, 0, ⟨0, 0⟩⟩) (l.getD j ⟨0, 0, ⟨0, 0⟩⟩) cd with
  | some m => rw [htm] at hnone; cases hnone
  | none => rfl

theorem frNoOverlap_symm : ∀ {x y : FreeRect}, frNoOverlap x y → frNoOverlap y x := by
  intro x y hxy
  unfold frNoOverlap overlapN at *
  omega

theorem merge_step_ok (S : Rect) (ps : List Placement) (cd : CutDirection)
    (fs : List FreeRect) (i j : Nat) (m : FreeRect)
    (hij : i < j) (hj : j < fs.length)
    (hm : GuillotineBin.try_merge (fs.getD i ⟨0, 0, ⟨0, 0⟩⟩) (fs.getD j ⟨0, 0, ⟨0, 0⟩⟩) cd = some m)
    (hps : ∀ p ∈ ps, rectPos p.rect)
    (hfs : FreesOk S ps fs) :
    FreesOk S ps (swapRemove (fs.set i m) j) := by
  obtain ⟨hbounds, hpw, hfp⟩ := hfs
  have hi : i < fs.length := by omega
  rw [List.getD_eq_getElem fs _ hi, List.getD_eq_getElem fs _ hj] at hm
  have hamem : fs[i] ∈ fs := List.getElem_mem hi
  have hbmem : fs[j] ∈ fs := List.getElem_mem hj
  have hma : inStock S m.x m.y m.rect :=
    try_merge_bounds S fs[i] fs[j] cd m hm (hbounds _ hamem).1 (hbounds _ hbmem).1
  have hmpos : rectPos m.rect :=
    try_merge_pos fs[i] fs[j] cd m hm (hbounds _ hamem).2 (hbounds _ hbmem).2
  -- permutation of the result into m :: rest
  have hp1 : (swapRemove (fs.set i m) j).Perm ((fs.set i m).eraseIdx j) :=
    swapRemove_perm _ j (by simpa using hj)
  have he : (fs.set i m).eraseIdx j = (fs.eraseIdx j).set i m := eraseIdx_set_comm fs i j m hij
  have hilen : i < (fs.eraseIdx j).length := by
    rw [List.length_eraseIdx]
    simp only [hj, if_pos]
    omega
  have hp2 : ((fs.eraseIdx j).set i m).Perm (m :: (fs.eraseIdx j).eraseIdx i) :=
    set_perm_cons_eraseIdx _ i m hilen
  have hperm : (swapRemove (fs.set i m) j).Perm (m :: (fs.eraseIdx j).eraseIdx i) :=
    hp1.trans (he ▸ hp2)
  -- b against everything else
  have hbperm : fs.Perm (fs[j] :: fs.eraseIdx j) := by
    conv_lhs => rw [← set_self_eq fs j hj]
    exact set_perm_cons_eraseIdx fs j fs[j] hj
  have hpw2 := (hbperm.pairwise_iff frNoOverlap_symm).mp hpw
  rw [List.pairwise_cons] at hpw2
  obtain ⟨hbrel, hpwE⟩ := hpw2
  -- a against the rest
  have hae : (fs.eraseIdx j)[i] = fs[i] := by
    rw [List.getElem_eraseIdx]
    simp [hij]
  have haperm : (fs.eraseIdx j).Perm (fs[i] :: (fs.eraseIdx j).eraseIdx i) := by
    have hset : (fs.eraseIdx j).set i fs[i] = fs.eraseIdx j := by
      conv_lhs => rw [← hae]
      exact set_self_eq _ i hilen
    have hsp := set_perm_cons_eraseIdx (fs.eraseIdx j) i fs[i] hilen
    rw [hset] at hsp
    exact hsp
  have hpw3 := (haperm.pairwise_iff frNoOverlap_symm).mp hpwE
  rw [List.pairwise_cons] at hpw3
  obtain ⟨harel, hpwR⟩ := hpw3
  have hrestsub2 : ∀ x ∈ (fs.eraseIdx j).eraseIdx i, x ∈ fs.eraseIdx j :=
    fun x hx => (List.eraseIdx_sublist _ i).mem hx
  have hrestsub : ∀ x ∈ (fs.eraseIdx j).eraseIdx i, x ∈ fs :=
    fun x hx => (List.eraseIdx_sublist fs j).mem (hrestsub2 x hx)
  refine ⟨?_, ?_, ?_⟩
  · intro f hf
    rcases List.mem_cons.mp (hperm.mem_iff.mp hf) with hfm | hfr
    · subst hfm; exact ⟨hma, hmpos⟩
    · exact hbounds f (hrestsub f hfr)
  · refine (hperm.pairwise_iff frNoOverlap_symm).mpr ?_
    rw [List.pairwise_cons]
    refine ⟨?_, hpwR⟩
    intro o ho hov
    rcases try_merge_overlap fs[i] fs[j] cd m hm o.x o.y o.rect
        (hbounds o (hrestsub o ho)).2 hov with hova | hovb
    · exact harel o ho hova
    · exact hbrel o (hrestsub2 o ho) hovb
  · intro f hf p hp
    rcases List.mem_cons.mp (hperm.mem_iff.mp hf) with hfm | hfr
    · subst hfm
      intro hov
      rcases try_merge_overlap fs[i] fs[j] cd f hm p.x p.y p.rect (hps p hp) hov with h1 | h1
      · exact hfp fs[i] hamem p hp h1
      · exact hfp fs[j] hbmem p hp h1
    · exact hfp f (hrestsub f hfr) p hp

theorem merge_loop_ok (S : Rect) (ps : List Placement) (cd : CutDirection) :
    ∀ fuel fs, (∀ p ∈ ps, rectPos p.rect) → FreesOk S ps fs →
      FreesOk S ps (merge_loop cd fuel fs) := by
  intro fuel
  induction fuel with
  | zero => intro fs _ h; exact h
  | succ n ih =>
    intro fs hps h
    simp only [merge_loop]
    match hc : find_merge_candidate cd fs with
    | none => exact h
    | some (i, j, m) =>
      obtain ⟨hij, hj, hm⟩ := fmc_some_spec cd fs i j m hc
      exact ih _ hps (merge_step_ok S ps cd fs i j m hij hj hm hps h)

theorem merge_loop_fixpoint (cd : CutDirection) :
    ∀ fuel fs, fs.length ≤ fuel →
      find_merge_candidate cd (merge_loop cd fuel fs) = none := by
  intro fuel
  induction fuel with
  | zero =>
    intro fs hlen
    have : fs = [] := List.length_eq_zero.mp (by omega)
    subst this
    rfl
  | succ n ih =>
    intro fs hlen
    simp only [merge_loop]
    match hc : find_merge_candidate cd fs with
    | none => exact hc
    | some (i, j, m) =>
      obtain ⟨hij, hj, hm⟩ := fmc_some_spec cd fs i j m hc
      have hlen2 : (swapRemove (fs.set i m) j).length = fs.length - 1 := by
        rw [swapRemove_length _ j (by simpa using hj)]
        simp
      exact ih _ (by omega)

/-! Split lemmas. -/

theorem overlapN_symm_imp (x1 y1 : Nat) (r1 : Rect) (x2 y2 : Nat) (r2 : Rect)
    (h : overlapN x1 y1 r1 x2 y2 r2) : overlapN x2 y2 r2 x1 y1 r1 := by
  unfold overlapN at *; omega

theorem overlap_mono (ox oy : Nat) (orect : Rect) (gx gy : Nat) (grect : Rect)
    (fx fy : Nat) (frect : Rect)
    (hsub : fx ≤ gx ∧ gx + grect.length ≤ fx + frect.length ∧
            fy ≤ gy ∧ gy + grect.width ≤ fy + frect.width)
    (hov : overlapN ox oy orect gx gy grect) : overlapN ox oy orect fx fy frect := by
  unfold overlapN at *; omega

theorem frees_ok_append (S : Rect) (ps : List Placement) (base pushed : List FreeRect)
    (free : FreeRect) (placed : Rect)
    (hbase : FreesOk S ps base)
    (hbase_free : ∀ o ∈ base, ¬ overlapN o.x o.y o.rect free.x free.y free.rect)
    (hps_free : ∀ p ∈ ps, ¬ overlapN free.x free.y free.rect p.x p.y p.rect)
    (hfree_b : inStock S free.x free.y free.rect)
    (hpush : ∀ g ∈ pushed, RemainderOk free placed g)
    (hpushpw : pushed.Pairwise frNoOverlap) :
    FreesOk S ps (base ++ pushed) := by
  obtain ⟨hb1, hb2, hb3⟩ := hbase
  refine ⟨?_, ?_, ?_⟩
  · intro f hf
    rcases List.mem_append.mp hf with h | h
    · exact hb1 f h
    · obtain ⟨hs1, hs2, hs3, hs4, hpos, _⟩ := hpush f h
      exact ⟨⟨by unfold inStock at hfree_b; omega, by unfold inStock at hfree_b; omega⟩, hpos⟩
  · rw [List.pairwise_append]
    refine ⟨hb2, hpushpw, ?_⟩
    intro o ho g hg hov
    obtain ⟨hs1, hs2, hs3, hs4, _, _⟩ := hpush g hg
    exact hbase_free o ho (overlap_mono o.x o.y o.rect g.x g.y g.rect free.x free.y free.rect
      ⟨hs1, hs2, hs3, hs4⟩ hov)
  · intro f hf p hp
    rcases List.mem_append.mp hf with h | h
    · exact hb3 f h p hp
    · intro hov
      obtain ⟨hs1, hs2, hs3, hs4, _, _⟩ := hpush f h
      exact hps_free p hp (overlapN_symm_imp _ _ _ _ _ _
        (overlap_mono p.x p.y p.rect f.x f.y f.rect free.x free.y free.rect
          ⟨hs1, hs2, hs3, hs4⟩ (overlapN_symm_imp _ _ _ _ _ _ hov)))

theorem split_spec_ok (S : Rect) (ps : List Placement) (bin : GuillotineBin)
    (free : FreeRect) (placed : Rect)
    (hfree_b : inStock S free.x free.y free.rect) (hfree_p : rectPos free.rect)
    (hfits : placed.length ≤ free.rect.length ∧ placed.width ≤ free.rect.width)
    (hplpos : rectPos placed)
    (hbase : FreesOk S ps bin.free_rects)
    (hbase_free : ∀ o ∈ bin.free_rects, ¬ overlapN o.x o.y o.rect free.x free.y free.rect)
    (hps_free : ∀ p ∈ ps, ¬ overlapN free.x free.y free.rect p.x p.y p.rect) :
    FreesOk S ps (bin.split free placed).free_rects ∧
    (∀ g ∈ (bin.split free placed).free_rects, g ∈ bin.free_rects ∨ RemainderOk free placed g) := by
  obtain ⟨hfl, hfw⟩ := hfits
  obtain ⟨hpl, hpw⟩ := hplpos
  obtain ⟨hfpl, hfpw⟩ := hfree_p
  simp only [GuillotineBin.split]
  split_ifs with h1 h2 h3 h4
  case pos =>
    -- both leftovers, split horizontally
    refine ⟨frees_ok_append S ps bin.free_rects _ free placed hbase hbase_free hps_free
      hfree_b ?_ ?_, ?_⟩
    · intro g hg
      rcases List.mem_cons.mp hg with hg1 | hg1
      · subst hg1
        unfold RemainderOk rectPos
        simp only
        omega
      · rcases List.mem_cons.mp hg1 with hg2 | hg2
        · subst hg2
          unfold RemainderOk rectPos
          simp only
          omega
        · simp at hg2
    · refine List.pairwise_cons.mpr ⟨?_, by simp⟩
      intro g hg
      rcases List.mem_cons.mp hg with hg1 | hg1
      · subst hg1
        unfold frNoOverlap overlapN
        simp only
        omega
      · simp at hg1
    · intro g hg
      rcases List.mem_append.mp hg with h | h
      · exact Or.inl h
      · refine Or.inr ?_
        rcases List.mem_cons.mp h with hg1 | hg1
        · subst hg1
          unfold RemainderOk rectPos
          simp only
          omega
        · rcases List.mem_cons.mp hg1 with hg2 | hg2
          · subst hg2
            unfold RemainderOk rectPos
            simp only
            omega
          · simp at hg2
  case neg =>
    -- both leftovers, split vertically
    refine ⟨frees_ok_append S ps bin.free_rects _ free placed hbase hbase_free hps_free
      hfree_b ?_ ?_, ?_⟩
    · intro g hg
      rcases List.mem_cons.mp hg with hg1 | hg1
      · subst hg1
        unfold RemainderOk rectPos
        simp only
        omega
      · rcases List.mem_cons.mp hg1 with hg2 | hg2
        · subst hg2
          unfold RemainderOk rectPos
          simp only
          omega
        · simp at hg2
    · refine List.pairwise_cons.mpr ⟨?_, by simp⟩
      intro g hg
      rcases List.mem_cons.mp hg with hg1 | hg1
      · subst hg1
        unfold frNoOverlap overlapN
        simp only
        omega
      · simp at hg1
    · intro g hg
      rcases List.mem_append.mp hg with h | h
      · exact Or.inl h
      · refine Or.inr ?_
        rcases List.mem_cons.mp h with hg1 | hg1
        · subst hg1
          unfold RemainderOk rectPos
          simp only
          omega
        · rcases List.mem_cons.mp hg1 with hg2 | hg2
          · subst hg2
            unfold RemainderOk rectPos
            simp only
            omega
          · simp at hg2
  case pos =>
    -- only right leftover
    refine ⟨frees_ok_append S ps bin.free_rects _ free placed hbase hbase_free hps_free
      hfree_b ?_ ?_, ?_⟩
    · intro g hg
      rcases List.mem_cons.mp hg with hg1 | hg1
      · subst hg1
        unfold RemainderOk rectPos
        simp only
        omega
      · simp at hg1
    · simp
    · intro g hg
      rcases List.mem_append.mp hg with h | h
      · exact Or.inl h
      · refine Or.inr ?_
        rcases List.mem_cons.mp h with hg1 | hg1
        · subst hg1
          unfold RemainderOk rectPos
          simp only
          omega
        · simp at hg1
  case pos =>
    -- only bottom leftover
    refine ⟨frees_ok_append S ps bin.free_rects _ free placed hbase hbase_free hps_free
      hfree_b ?_ ?_, ?_⟩
    · intro g hg
      rcases List.mem_cons.mp hg with hg1 | hg1
      · subst hg1
        unfold RemainderOk rectPos
        simp only
        omega
      · simp at hg1
    · simp
    · intro g hg
      rcases List.mem_append.mp hg with h | h
      · exact Or.inl h
      · refine Or.inr ?_
        rcases List.mem_cons.mp h with hg1 | hg1
        · subst hg1
          unfold RemainderOk rectPos
          simp only
          omega
        · simp at hg1
  case neg =>
    exact ⟨hbase, fun g hg => Or.inl hg⟩

theorem fits_in_iff (r o : Rect) :
    r.fits_in o = true ↔ (r.length ≤ o.length ∧ r.width ≤ o.width) := by
  simp [Rect.fits_in]

theorem split_placements (bin : GuillotineBin) (free : FreeRect) (placed : Rect) :
    (bin.split free placed).placements = bin.placements := by
  simp only [GuillotineBin.split]
  split_ifs <;> rfl

theorem merge_placements (bin : GuillotineBin) :
    bin.merge_free_rects.placements = bin.placements := rfl

theorem place_snd_eq (bin : GuillotineBin) (scored : ScoredPlacement) (piece : Rect) :
    (bin.place scored piece).2 =
      ⟨(if scored.rotated then piece.rotated else piece),
       (bin.free_rects.getD scored.free_idx ⟨0, 0, ⟨0, 0⟩⟩).x,
       (bin.free_rects.getD scored.free_idx ⟨0, 0, ⟨0, 0⟩⟩).y,
       scored.rotated⟩ := rfl

theorem place_fst_placements (bin : GuillotineBin) (scored : ScoredPlacement) (piece : Rect) :
    (bin.place scored piece).1.placements =
      bin.placements ++ [(bin.place scored piece).2] := by
  unfold GuillotineBin.place
  simp only [merge_placements]
  rw [split_placements]

theorem place_ok (S : Rect) (bin : GuillotineBin) (scored : ScoredPlacement) (piece : Rect)
    (hBin : BinOk S bin)
    (hppos : rectPos piece)
    (hidx : scored.free_idx < bin.free_rects.length)
    (hfits : (if scored.rotated then piece.rotated else piece).fits_in
        (bin.free_rects.get ⟨scored.free_idx, hidx⟩).rect = true) :
    BinOk S (bin.place scored piece).1 := by
  obtain ⟨hplb, hplpw, hfOk⟩ := hBin
  obtain ⟨hfb, hfpw, hfpl⟩ := hfOk
  have hgd : bin.free_rects.getD scored.free_idx ⟨0, 0, ⟨0, 0⟩⟩ =
      bin.free_rects[scored.free_idx] := List.getD_eq_getElem _ _ hidx
  have hfmem : bin.free_rects[scored.free_idx] ∈ bin.free_rects := List.getElem_mem hidx
  have hfreeb := (hfb _ hfmem).1
  have hfreep := (hfb _ hfmem).2
  have hplaced_fits : (if scored.rotated then piece.rotated else piece).length ≤
        bin.free_rects[scored.free_idx].rect.length ∧
      (if scored.rotated then piece.rotated else piece).width ≤
        bin.free_rects[scored.free_idx].rect.width := by
    rw [← fits_in_iff]
    exact hfits
  have hplacedpos : rectPos (if scored.rotated then piece.rotated else piece) := by
    unfold rectPos at hppos ⊢
    split
    · exact ⟨hppos.2, hppos.1⟩
    · exact hppos
  have hswap : (swapRemove bin.free_rects scored.free_idx).Perm
      (bin.free_rects.eraseIdx scored.free_idx) := swapRemove_perm _ _ hidx
  have hfullperm : bin.free_rects.Perm
      (bin.free_rects[scored.free_idx] :: bin.free_rects.eraseIdx scored.free_idx) := by
    conv_lhs => rw [← set_self_eq bin.free_rects scored.free_idx hidx]
    exact set_perm_cons_eraseIdx _ _ _ hidx
  have hpwE := (hfullperm.pairwise_iff frNoOverlap_symm).mp hfpw
  rw [List.pairwise_cons] at hpwE
  obtain ⟨hfreerel, hpwErest⟩ := hpwE
  have hmemE : ∀ o ∈ swapRemove bin.free_rects scored.free_idx,
      o ∈ bin.free_rects.eraseIdx scored.free_idx := fun o ho => hswap.mem_iff.mp ho
  have hmemFull : ∀ o ∈ swapRemove bin.free_rects scored.free_idx, o ∈ bin.free_rects :=
    fun o ho => (List.eraseIdx_sublist _ _).mem (hmemE o ho)
  have hbase : FreesOk S bin.placements (swapRemove bin.free_rects scored.free_idx) := by
    refine ⟨fun f hf => hfb f (hmemFull f hf), ?_, fun f hf p hp => hfpl f (hmemFull f hf) p hp⟩
    exact (hswap.pairwise_iff frNoOverlap_symm).mpr
      (List.Pairwise.sublist (List.eraseIdx_sublist _ _) hfpw)
  have hbase_free : ∀ o ∈ swapRemove bin.free_rects scored.free_idx,
      ¬ overlapN o.x o.y o.rect (bin.free_rects[scored.free_idx]).x
        (bin.free_rects[scored.free_idx]).y (bin.free_rects[scored.free_idx]).rect := by
    intro o ho hov
    exact hfreerel o (hmemE o ho) (overlapN_symm_imp _ _ _ _ _ _ hov)
  have hps_free : ∀ p ∈ bin.placements,
      ¬ overlapN (bin.free_rects[scored.free_idx]).x (bin.free_rects[scored.free_idx]).y
        (bin.free_rects[scored.free_idx]).rect p.x p.y p.rect :=
    fun p hp => hfpl _ hfmem p hp
  have hsplit := split_spec_ok S bin.placements
    { bin with free_rects := swapRemove bin.free_rects scored.free_idx }
    bin.free_rects[scored.free_idx] (if scored.rotated then piece.rotated else piece)
    hfreeb hfreep hplaced_fits hplacedpos hbase hbase_free hps_free
  obtain ⟨hsplitOk, hsplitMem⟩ := hsplit
  -- facts about every placement of the extended list, stated via projections
  have hnewpl : ∀ pl : Placement,
      pl.rect = (if scored.rotated then piece.rotated else piece) →
      pl.x = bin.free_rects[scored.free_idx].x →
      pl.y = bin.free_rects[scored.free_idx].y →
      (inStock S pl.x pl.y pl.rect ∧ rectPos pl.rect) ∧
      (∀ o ∈ bin.placements, plNoOverlap o pl) ∧
      (∀ f ∈ ({ bin with free_rects := swapRemove bin.free_rects scored.free_idx
        }.split bin.free_rects[scored.free_idx]
          (if scored.rotated then piece.rotated else piece)).free_rects,
        frplNoOverlap f pl) := by
    intro pl hr hx hy
    have hrl : pl.rect.length = (if scored.rotated then piece.rotated else piece).length := by
      rw [hr]
    have hrw : pl.rect.width = (if scored.rotated then piece.rotated else piece).width := by
      rw [hr]
    refine ⟨?_, ?_, ?_⟩
    · unfold inStock at hfreeb ⊢
      unfold rectPos at hplacedpos ⊢
      constructor
      · constructor <;> omega
      · omega
    · intro o ho hov
      refine hps_free o ho (overlapN_symm_imp _ _ _ _ _ _ ?_)
      exact overlap_mono o.x o.y o.rect pl.x pl.y pl.rect _ _ _
        ⟨by omega, by omega, by omega, by omega⟩ hov
    · intro f hf hov
      rcases hsplitMem f hf with hin | hrem
      · exact hbase_free f hin (overlap_mono f.x f.y f.rect pl.x pl.y pl.rect _ _ _
          ⟨by omega, by omega, by omega, by omega⟩ hov)
      · unfold RemainderOk at hrem
        unfold overlapN at hov
        unfold rectPos at hplacedpos
        omega
  have hkey := hnewpl ⟨(if scored.rotated then piece.rotated else piece),
      bin.free_rects[scored.free_idx].x, bin.free_rects[scored.free_idx].y,
      scored.rotated⟩ rfl rfl rfl
  obtain ⟨hplB, hplNoOv, hfrNewPl⟩ := hkey
  -- the invariant before the merge step
  have hps2 : ∀ p ∈ bin.placements ++ [(⟨(if scored.rotated then piece.rotated else piece),
      bin.free_rects[scored.free_idx].x, bin.free_rects[scored.free_idx].y,
      scored.rotated⟩ : Placement)], inStock S p.x p.y p.rect ∧ rectPos p.rect := by
    intro p hp
    rcases List.mem_append.mp hp with h | h
    · exact hplb p h
    · rw [List.mem_singleton] at h
      subst h
      exact hplB
  have hpw2 : (bin.placements ++ [(⟨(if scored.rotated then piece.rotated else piece),
      bin.free_rects[scored.free_idx].x, bin.free_rects[scored.free_idx].y,
      scored.rotated⟩ : Placement)]).Pairwise plNoOverlap := by
    rw [List.pairwise_append]
    refine ⟨hplpw, by simp, ?_⟩
    intro o ho g hg
    rw [List.mem_singleton] at hg
    subst hg
    exact hplNoOv o ho
  have hfr2 : FreesOk S (bin.placements ++ [(⟨(if scored.rotated then piece.rotated else piece),
      bin.free_rects[scored.free_idx].x, bin.free_rects[scored.free_idx].y,
      scored.rotated⟩ : Placement)])
      ({ bin with free_rects := swapRemove bin.free_rects scored.free_idx
        }.split bin.free_rects[scored.free_idx]
          (if scored.rotated then piece.rotated else piece)).free_rects := by
    obtain ⟨hs1, hs2, hs3⟩ := hsplitOk
    refine ⟨hs1, hs2, ?_⟩
    intro f hf p hp
    rcases List.mem_append.mp hp with h | h
    · exact hs3 f hf p h
    · rw [List.mem_singleton] at h
      subst h
      exact hfrNewPl f hf
  -- push the invariant through merge_free_rects
  show BinOk S ((_ : GuillotineBin).merge_free_rects)
  simp only [hgd]
  constructor
  · rw [merge_placements]
    rw [split_placements]
    exact hps2
  constructor
  · rw [merge_placements]
    rw [split_placements]
    exact hpw2
  · show FreesOk S _ _
    rw [merge_placements, split_placements]
    refine merge_loop_ok S _ _ _ _ (fun p hp => (hps2 p hp).2) ?_
    exact hfr2

/-- Claim C4: the resolved RotationConstraint is NoRotate when the grain
directions agree, ForceRotate when they disagree, and otherwise starts from
Free (when rotation is allowed) or NoRotate (when not), with a Free result
biased by the cut direction on non-square pieces (AlongLength forces rotation
exactly when length < width and forbids it when width < length; AlongWidth is
symmetric; Auto leaves Free; squares pass through), grain taking precedence
over cut direction. -/
theorem c4_rotation_policy (sg : StockGrain) (pg : PieceGrain) (allow : Bool)
    (cd : CutDirection) (piece : Rect) :
    (((sg = StockGrain.AlongLength ∧ pg = PieceGrain.Length) ∨
      (sg = StockGrain.AlongWidth ∧ pg = PieceGrain.Width)) →
      (RotationConstraint.from_grain sg pg allow).with_cut_direction cd piece =
        RotationConstraint.NoRotate) ∧
    (((sg = StockGrain.AlongLength ∧ pg = PieceGrain.Width) ∨
      (sg = StockGrain.AlongWidth ∧ pg = PieceGrain.Length)) →
      (RotationConstraint.from_grain sg pg allow).with_cut_direction cd piece =
        RotationConstraint.ForceRotate) ∧
    ((sg = StockGrain.None ∨ pg = PieceGrain.Auto) →
      (RotationConstraint.from_grain sg pg allow).with_cut_direction cd piece =
        (if allow then
          match cd with
          | CutDirection.Auto => RotationConstraint.Free
          | CutDirection.AlongLength =>
            if piece.length < piece.width then RotationConstraint.ForceRotate
            else if piece.width < piece.length then RotationConstraint.NoRotate
            else RotationConstraint.Free
          | CutDirection.AlongWidth =>
            if piece.width < piece.length then RotationConstraint.ForceRotate
            else if piece.length < piece.width then RotationConstraint.NoRotate
            else RotationConstraint.Free
        else RotationConstraint.NoRotate)) := by
  refine ⟨?_, ?_, ?_⟩
  · rintro (⟨h1, h2⟩ | ⟨h1, h2⟩) <;> subst h1 <;> subst h2 <;> rfl
  · rintro (⟨h1, h2⟩ | ⟨h1, h2⟩) <;> subst h1 <;> subst h2 <;> rfl
  · rintro (h1 | h1) <;> subst h1 <;>
      cases allow <;>
      first
        | (cases pg <;> cases cd <;>
            simp only [RotationConstraint.from_grain, RotationConstraint.with_cut_direction,
              if_true, if_false, Bool.false_eq_true])
        | (cases sg <;> cases cd <;>
            simp only [RotationConstraint.from_grain, RotationConstraint.with_cut_direction,
              if_true, if_false, Bool.false_eq_true])

/-- Claim C3: the split rule of GuillotineBin::place, with leftover lengths
RL and RW computed by saturating subtraction of the oriented piece plus kerf:
both positive splits along length exactly under AlongLength or under Auto
with FL - PL < FW - PW and otherwise along width, with the remainder origins
and sizes as specified; a single positive leftover yields the single
remainder; no leftover yields no remainder. -/
theorem c3_split_rule (bin : GuillotineBin) (free : FreeRect) (placed : Rect)
    (hL : placed.length ≤ free.rect.length) (hW : placed.width ≤ free.rect.width) :
    (0 < free.rect.length - (placed.length + bin.kerf) →
     0 < free.rect.width - (placed.width + bin.kerf) →
      (((bin.cut_direction = CutDirection.AlongLength ∨
         (bin.cut_direction = CutDirection.Auto ∧
          free.rect.length - placed.length < free.rect.width - placed.width)) →
        (bin.split free placed).free_rects = bin.free_rects ++
          [⟨free.x + placed.length + bin.kerf, free.y,
            ⟨free.rect.length - (placed.length + bin.kerf), placed.width⟩⟩,
           ⟨free.x, free.y + placed.width + bin.kerf,
            ⟨free.rect.length, free.rect.width - (placed.width + bin.kerf)⟩⟩]) ∧
       ((bin.cut_direction = CutDirection.AlongWidth ∨
         (bin.cut_direction = CutDirection.Auto ∧
          ¬ free.rect.length - placed.length < free.rect.width - placed.width)) →
        (bin.split free placed).free_rects = bin.free_rects ++
          [⟨free.x + placed.length + bin.kerf, free.y,
            ⟨free.rect.length - (placed.length + bin.kerf), free.rect.width⟩⟩,
           ⟨free.x, free.y + placed.width + bin.kerf,
            ⟨placed.length, free.rect.width - (placed.width + bin.kerf)⟩⟩]))) ∧
    (0 < free.rect.length - (placed.length + bin.kerf) →
     free.rect.width - (placed.width + bin.kerf) = 0 →
      (bin.split free placed).free_rects = bin.free_rects ++
        [⟨free.x + placed.length + bin.kerf, free.y,
          ⟨free.rect.length - (placed.length + bin.kerf), free.rect.width⟩⟩]) ∧
    (free.rect.length - (placed.length + bin.kerf) = 0 →
     0 < free.rect.width - (placed.width + bin.kerf) →
      (bin.split free placed).free_rects = bin.free_rects ++
        [⟨free.x, free.y + placed.width + bin.kerf,
          ⟨free.rect.length, free.rect.width - (placed.width + bin.kerf)⟩⟩]) ∧
    (free.rect.length - (placed.length + bin.kerf) = 0 →
     free.rect.width - (placed.width + bin.kerf) = 0 →
      (bin.split free placed).free_rects = bin.free_rects) := by
  refine ⟨?_, ?_, ?_, ?_⟩
  · intro hRL hRW
    constructor
    · intro hdir
      simp only [GuillotineBin.split]
      rw [if_pos ⟨hRL, hRW⟩]
      rcases hdir with hd | ⟨hd, hlt⟩
      · rw [hd]
        rfl
      · rw [hd]
        simp only [decide_eq_true_eq]
        rw [if_pos hlt]
    · intro hdir
      simp only [GuillotineBin.split]
      rw [if_pos ⟨hRL, hRW⟩]
      rcases hdir with hd | ⟨hd, hlt⟩
      · rw [hd]
        rfl
      · rw [hd]
        simp only [decide_eq_true_eq]
        rw [if_neg hlt]
  · intro hRL hRW
    simp only [GuillotineBin.split]
    rw [if_neg (by omega), if_pos hRL]
  · intro hRL hRW
    simp only [GuillotineBin.split]
    rw [if_neg (by omega), if_neg (by omega), if_pos hRW]
  · intro hRL hRW
    simp only [GuillotineBin.split]
    rw [if_neg (by omega), if_neg (by omega), if_neg (by omega)]

/-- Claim C5: after merge_free_rects no pair of free rects can still merge
(the loop reran until no pair qualified); a successful try_merge is a
length-wise merge of rects with identical y and width and adjacent x-extents
or a width-wise merge of rects with identical x and length and adjacent
y-extents, and the merged rect covers exactly the union of the two; under
AlongWidth no length-wise merge ever occurs, under AlongLength no width-wise
merge ever occurs, and Auto allows both. -/
theorem c5_merge_rule (bin : GuillotineBin) (a b m : FreeRect) :
    (∀ i j, i < j → j < bin.merge_free_rects.free_rects.length →
      GuillotineBin.try_merge (bin.merge_free_rects.free_rects.getD i ⟨0, 0, ⟨0, 0⟩⟩)
        (bin.merge_free_rects.free_rects.getD j ⟨0, 0, ⟨0, 0⟩⟩) bin.cut_direction = none) ∧
    (GuillotineBin.try_merge a b bin.cut_direction = some m →
      ((MergeH a b m ∨ MergeH b a m ∨ MergeV a b m ∨ MergeV b a m) ∧
       (∀ px py, inFreeRect m px py ↔ (inFreeRect a px py ∨ inFreeRect b px py)))) ∧
    (bin.cut_direction = CutDirection.AlongWidth →
      GuillotineBin.try_merge a b bin.cut_direction = some m →
      (MergeV a b m ∨ MergeV b a m)) ∧
    (bin.cut_direction = CutDirection.AlongLength →
      GuillotineBin.try_merge a b bin.cut_direction = some m →
      (MergeH a b m ∨ MergeH b a m)) := by
  refine ⟨?_, ?_, ?_, ?_⟩
  · have hfix := merge_loop_fixpoint bin.cut_direction bin.free_rects.length
      bin.free_rects (Nat.le_refl _)
    exact fun i j hij hj => fmc_none_spec _ _ hfix i j hij hj
  · intro hm
    rcases try_merge_some_cases a b bin.cut_direction m hm with ⟨_, hc | hc⟩ | ⟨_, hc | hc⟩
    · refine ⟨Or.inl hc, ?_⟩
      unfold MergeH at hc
      intro px py
      unfold inFreeRect
      omega
    · refine ⟨Or.inr (Or.inl hc), ?_⟩
      unfold MergeH at hc
      intro px py
      unfold inFreeRect
      omega
    · refine ⟨Or.inr (Or.inr (Or.inl hc)), ?_⟩
      unfold MergeV at hc
      intro px py
      unfold inFreeRect
      omega
    · refine ⟨Or.inr (Or.inr (Or.inr hc)), ?_⟩
      unfold MergeV at hc
      intro px py
      unfold inFreeRect
      omega
  · intro hcd hm
    rcases try_merge_some_cases a b bin.cut_direction m hm with ⟨hne, _⟩ | ⟨_, hc⟩
    · exact absurd hcd hne
    · exact hc
  · intro hcd hm
    rcases try_merge_some_cases a b bin.cut_direction m hm with ⟨_, hc⟩ | ⟨hne, _⟩
    · exact hc
    · exact absurd hcd hne

/-- Claim C9: find_best is total; it returns none exactly when no permitted
orientation of the piece fits in any free rect; and any returned candidate
fits in its free rect, so each subtraction inside score (free.area minus
piece.area, free.length minus piece.length, free.width minus piece.width for
the oriented piece) has its left operand at least its right operand. -/
theorem c9_find_best_safety (bin : GuillotineBin) (piece : Rect)
    (rotation : RotationConstraint) (strategy : ScoreStrategy) :
    (bin.find_best piece rotation strategy = none ↔
      ∀ f ∈ bin.free_rects,
        (rotation ≠ RotationConstraint.ForceRotate → piece.fits_in f.rect = false) ∧
        (rotation ≠ RotationConstraint.NoRotate → piece.rotated.fits_in f.rect = false)) ∧
    (∀ sp, bin.find_best piece rotation strategy = some sp →
      ∃ h : sp.free_idx < bin.free_rects.length,
        (if sp.rotated then piece.rotated else piece).area ≤
          (bin.free_rects.get ⟨sp.free_idx, h⟩).rect.area ∧
        (if sp.rotated then piece.rotated else piece).length ≤
          (bin.free_rects.get ⟨sp.free_idx, h⟩).rect.length ∧
        (if sp.rotated then piece.rotated else piece).width ≤
          (bin.free_rects.get ⟨sp.free_idx, h⟩).rect.width) := by
  refine ⟨find_best_none_iff bin piece rotation strategy, ?_⟩
  intro sp hsp
  obtain ⟨hk, hfits, _, _⟩ := find_best_some_spec bin piece rotation strategy sp hsp
  rw [fits_in_iff] at hfits
  exact ⟨hk, Nat.mul_le_mul hfits.1 hfits.2, hfits.1, hfits.2⟩

/-! Solver-level plumbing. -/

theorem orient_area (r : Rect) (b : Bool) : (if b then r.rotated else r).area = r.area := by
  cases b
  · rfl
  · show (r.rotated).area = r.area
    unfold Rect.area Rect.rotated
    exact Nat.mul_comm _ _

theorem place_used_area (bin : GuillotineBin) (scored : ScoredPlacement) (piece : Rect) :
    (bin.place scored piece).1.used_area = bin.used_area + piece.area := by
  unfold GuillotineBin.used_area
  rw [place_fst_placements, List.map_append, List.sum_append]
  simp [place_snd_eq, orient_area]

theorem place_pl_len (bin : GuillotineBin) (scored : ScoredPlacement) (piece : Rect) :
    (bin.place scored piece).1.placements.length = bin.placements.length + 1 := by
  rw [place_fst_placements]
  simp

theorem place_pl_ne_nil (bin : GuillotineBin) (scored : ScoredPlacement) (piece : Rect) :
    (bin.place scored piece).1.placements ≠ [] := by
  rw [place_fst_placements]
  simp

theorem map_sum_set {α : Type} (g : α → Nat) (l : List α) (i : Nat) (a : α)
    (h : i < l.length) :
    ((l.set i a).map g).sum + g l[i] = (l.map g).sum + g a := by
  induction l generalizing i with
  | nil => simp at h
  | cons x xs ih =>
    cases i with
    | zero => simp [List.set]; omega
    | succ n =>
      have hn : n < xs.length := by simpa using h
      simp only [List.set, List.map, List.sum_cons]
      have := ih n hn
      simp only [List.getElem_cons_succ]
      omega

theorem binOk_new (stock : Rect) (k : Nat) (cd : CutDirection) (hpos : rectPos stock) :
    BinOk stock (GuillotineBin.new stock k cd) := by
  unfold BinOk FreesOk GuillotineBin.new
  refine ⟨by simp, by simp, ?_, by simp [List.pairwise_cons], by simp⟩
  intro f hf
  rw [List.mem_singleton] at hf
  subst hf
  exact ⟨⟨by simp, by simp⟩, hpos⟩

theorem pick_bin_aux_some (piece : Rect) (rot : RotationConstraint) (strat : ScoreStrategy)
    (bins : List GuillotineBin) (bi0 : Nat) (acc : Option (Nat × (Nat × Nat)))
    (res : Nat × (Nat × Nat))
    (h : pick_bin_aux piece rot strat bins bi0 acc = some res) :
    acc = some res ∨ ∃ k, ∃ hk : k < bins.length, res.1 = bi0 + k ∧
      ∃ sc, (bins.get ⟨k, hk⟩).find_best piece rot strat = some sc := by
  induction bins generalizing bi0 acc with
  | nil => exact Or.inl h
  | cons bn rest ih =>
    simp only [pick_bin_aux] at h
    rcases ih (bi0 + 1) _ h with h2 | h2
    · -- the updated accumulator equals the result: trace one step
      match hfb : bn.find_best piece rot strat with
      | some scored =>
        rw [hfb] at h2
        match hacc : acc with
        | none =>
          simp only at h2
          injection h2 with h2
          exact Or.inr ⟨0, by simp, by rw [← h2]; simp, scored, by simpa using hfb⟩
        | some pr =>
          simp only at h2
          split at h2
          · injection h2 with h2
            exact Or.inr ⟨0, by simp, by rw [← h2]; simp, scored, by simpa using hfb⟩
          · exact Or.inl h2
      | none =>
        rw [hfb] at h2
        exact Or.inl h2
    · obtain ⟨k, hk, hres, sc, hsc⟩ := h2
      refine Or.inr ⟨k + 1, by simpa using Nat.succ_lt_succ hk, by omega, sc, by simpa using hsc⟩

theorem greedy_step_ok (s : Solver) (strat : ScoreStrategy) (dir : CutDirection)
    (bins bins2 : List GuillotineBin) (pr : Rect × RotationConstraint)
    (hstep : s.greedy_step strat dir bins pr = some bins2)
    (hppos : rectPos pr.1)
    (hstock : rectPos s.stock)
    (hBins : BinsOk s.stock bins) :
    BinsOk s.stock bins2 ∧
    totalPl bins2 = totalPl bins + 1 ∧
    totalArea bins2 = totalArea bins + pr.1.area ∧
    ((∀ b ∈ bins, b.placements ≠ []) → ∀ b ∈ bins2, b.placements ≠ []) := by
  unfold Solver.greedy_step at hstep
  match hpick : pick_bin_aux pr.1 pr.2 strat bins 0 none with
  | some best =>
    rw [hpick] at hstep
    simp only at hstep
    rcases pick_bin_aux_some _ _ _ _ _ _ _ hpick with hc | hc
    · cases hc
    obtain ⟨k, hk, hres, sc, hsc⟩ := hc
    have hbi : best.1 < bins.length := by omega
    have hgd : bins.getD best.1 dfltBin = bins[best.1] := List.getD_eq_getElem _ _ hbi
    match hfb : (bins.getD best.1 dfltBin).find_best pr.1 pr.2 strat with
    | some scored =>
      rw [hfb] at hstep
      simp only at hstep
      injection hstep with hstep
      subst hstep
      have hbinok : BinOk s.stock (bins.getD best.1 dfltBin) := by
        rw [hgd]
        exact hBins _ (List.getElem_mem hbi)
      obtain ⟨hk2, hfits2, _, _⟩ := find_best_some_spec _ _ _ _ _ hfb
      have hplaceok := place_ok s.stock (bins.getD best.1 dfltBin) scored pr.1
        hbinok hppos hk2 hfits2
      refine ⟨?_, ?_, ?_, ?_⟩
      · intro b hb
        rcases List.mem_or_eq_of_mem_set hb with h | h
        · exact hBins b h
        · subst h
          exact hplaceok
      · have hms := map_sum_set (fun b => b.placements.length) bins best.1
          ((bins.getD best.1 dfltBin).place scored pr.1).1 hbi
        have hlen : (bins.getD best.1 dfltBin).placements.length =
            bins[best.1].placements.length := by rw [hgd]
        unfold totalPl
        rw [place_pl_len] at hms
        omega
      · have hms := map_sum_set GuillotineBin.used_area bins best.1
          ((bins.getD best.1 dfltBin).place scored pr.1).1 hbi
        have harea : (bins.getD best.1 dfltBin).used_area =
            bins[best.1].used_area := by rw [hgd]
        unfold totalArea
        rw [place_used_area] at hms
        omega
      · intro hne b hb
        rcases List.mem_or_eq_of_mem_set hb with h | h
        · exact hne b h
        · subst h
          exact place_pl_ne_nil _ _ _
    | none =>
      rw [hfb] at hstep
      cases hstep
  | none =>
    rw [hpick] at hstep
    simp only at hstep
    match hfb : (GuillotineBin.new s.stock s.kerf dir).find_best pr.1 pr.2 strat with
    | some scored =>
      rw [hfb] at hstep
      simp only at hstep
      injection hstep with hstep
      subst hstep
      obtain ⟨hk2, hfits2, _, _⟩ := find_best_some_spec _ _ _ _ _ hfb
      have hplaceok := place_ok s.stock (GuillotineBin.new s.stock s.kerf dir) scored pr.1
        (binOk_new s.stock s.kerf dir hstock) hppos hk2 hfits2
      refine ⟨?_, ?_, ?_, ?_⟩
      · intro b hb
        rcases List.mem_append.mp hb with h | h
        · exact hBins b h
        · rw [List.mem_singleton] at h
          subst h
          exact hplaceok
      · unfold totalPl
        rw [List.map_append, List.sum_append]
        simp [place_pl_len, GuillotineBin.new]
      · unfold totalArea
        rw [List.map_append, List.sum_append]
        simp only [List.map, List.sum_cons, List.sum_nil]
        rw [place_used_area]
        simp [GuillotineBin.new, GuillotineBin.used_area]
      · intro hne b hb
        rcases List.mem_append.mp hb with h | h
        · exact hne b h
        · rw [List.mem_singleton] at h
          subst h
          exact place_pl_ne_nil _ _ _
    | none =>
      rw [hfb] at hstep
      cases hstep

theorem greedy_loop_ok (s : Solver) (strat : ScoreStrategy) (dir : CutDirection) :
    ∀ (pieces : List (Rect × RotationConstraint)) (bins out : List GuillotineBin),
    s.greedy_loop strat dir pieces bins = some out →
    (∀ pr ∈ pieces, rectPos pr.1) → rectPos s.stock → BinsOk s.stock bins →
    BinsOk s.stock out ∧
    totalPl out = totalPl bins + pieces.length ∧
    totalArea out = totalArea bins + (pieces.map (fun pr => pr.1.area)).sum ∧
    ((∀ b ∈ bins, b.placements ≠ []) → ∀ b ∈ out, b.placements ≠ []) := by
  intro pieces
  induction pieces with
  | nil =>
    intro bins out h hpos hstock hBins
    simp only [Solver.greedy_loop] at h
    injection h with h
    subst h
    exact ⟨hBins, by simp, by simp, fun hne => hne⟩
  | cons pr rest ih =>
    intro bins out h hpos hstock hBins
    simp only [Solver.greedy_loop] at h
    match hstep : s.greedy_step strat dir bins pr with
    | some binsN =>
      rw [hstep] at h
      obtain ⟨h1, h2, h3, h4⟩ := greedy_step_ok s strat dir bins binsN pr hstep
        (hpos pr (List.mem_cons_self pr rest)) hstock hBins
      obtain ⟨g1, g2, g3, g4⟩ := ih binsN out h
        (fun q hq => hpos q (List.mem_cons_of_mem pr hq)) hstock h1
      refine ⟨g1, ?_, ?_, fun hne => g4 (h4 hne)⟩
      · simp only [List.length_cons]
        omega
      · simp only [List.map, List.sum_cons]
        omega
    | none =>
      rw [hstep] at h
      cases h

theorem greedy_step_some (s : Solver) (strat : ScoreStrategy) (dir : CutDirection)
    (bins : List GuillotineBin) (pr : Rect × RotationConstraint)
    (hpl : Placeable s.stock pr) :
    ∃ bins2, s.greedy_step strat dir bins pr = some bins2 := by
  unfold Solver.greedy_step
  match hpick : pick_bin_aux pr.1 pr.2 strat bins 0 none with
  | some best =>
    rcases pick_bin_aux_some _ _ _ _ _ _ _ hpick with hc | hc
    · cases hc
    obtain ⟨k, hk, hres, sc, hsc⟩ := hc
    have hbi : best.1 < bins.length := by omega
    have hgd : bins.getD best.1 dfltBin = bins[best.1] := List.getD_eq_getElem _ _ hbi
    have hkk : bins[best.1] = bins.get ⟨k, hk⟩ := by
      congr 1
      omega
    show ∃ bins2,
      (match (bins.getD best.1 dfltBin).find_best pr.1 pr.2 strat with
        | some scored => some (bins.set best.1 ((bins.getD best.1 dfltBin).place scored pr.1).1)
        | none => none) = some bins2
    rw [hgd, hkk, hsc]
    exact ⟨_, rfl⟩
  | none =>
    match hfb : (GuillotineBin.new s.stock s.kerf dir).find_best pr.1 pr.2 strat with
    | some scored =>
      show ∃ bins2,
        (match (GuillotineBin.new s.stock s.kerf dir).find_best pr.1 pr.2 strat with
          | some scored => some (bins ++ [((GuillotineBin.new s.stock s.kerf dir).place scored pr.1).1])
          | none => none) = some bins2
      rw [hfb]
      exact ⟨_, rfl⟩
    | none =>
      exfalso
      rw [find_best_none_iff] at hfb
      have := hfb ⟨0, 0, s.stock⟩ (List.mem_singleton.mpr rfl)
      unfold Placeable at hpl
      rcases hpl with ⟨hne, hfits⟩ | ⟨hne, hfits⟩
      · rw [this.1 hne] at hfits
        cases hfits
      · rw [this.2 hne] at hfits
        cases hfits

theorem greedy_loop_some (s : Solver) (strat : ScoreStrategy) (dir : CutDirection) :
    ∀ (pieces : List (Rect × RotationConstraint)) (bins : List GuillotineBin),
    (∀ pr ∈ pieces, Placeable s.stock pr) →
    ∃ out, s.greedy_loop strat dir pieces bins = some out := by
  intro pieces
  induction pieces with
  | nil => exact fun bins _ => ⟨bins, rfl⟩
  | cons pr rest ih =>
    intro bins hpl
    obtain ⟨bins2, hstep⟩ := greedy_step_some s strat dir bins pr
      (hpl pr (List.mem_cons_self pr rest))
    obtain ⟨out, hloop⟩ := ih bins2 (fun q hq => hpl q (List.mem_cons_of_mem pr hq))
    refine ⟨out, ?_⟩
    simp only [Solver.greedy_loop]
    rw [hstep]
    exact hloop

theorem greedy_best_loop_ok (s : Solver) (pieces : List (Rect × RotationConstraint))
    (Q : Solution → Prop) :
    ∀ (combos : List (CutDirection × ScoreStrategy)) (best : Option Solution)
      (out : Solution),
    s.greedy_best_loop pieces combos best = some out →
    (∀ sol, best = some sol → Q sol) →
    (∀ dir strat bins, s.greedy_loop strat dir pieces [] = some bins →
      Q (s.bins_to_solution bins)) →
    Q out := by
  intro combos
  induction combos with
  | nil =>
    intro best out h hbest hloop
    exact hbest out h
  | cons c rest ih =>
    intro best out h hbest hloop
    match c with
    | (dir, strat) =>
      simp only [Solver.greedy_best_loop] at h
      match hl : s.greedy_loop strat dir pieces [] with
      | none =>
        rw [hl] at h
        cases h
      | some bins =>
        rw [hl] at h
        simp only at h
        refine ih _ out h ?_ hloop
        intro sol hsol
        match best with
        | none =>
          simp only at hsol
          injection hsol with hsol
          subst hsol
          exact hloop dir strat bins hl
        | some b =>
          simp only at hsol
          split at hsol
          · injection hsol with hsol
            subst hsol
            exact hloop dir strat bins hl
          · injection hsol with hsol
            subst hsol
            exact hbest b rfl

theorem greedy_best_loop_some (s : Solver) (pieces : List (Rect × RotationConstraint))
    (hpl : ∀ pr ∈ pieces, Placeable s.stock pr) :
    ∀ (combos : List (CutDirection × ScoreStrategy)) (best : Option Solution),
    (combos ≠ [] ∨ ∃ b, best = some b) →
    ∃ out, s.greedy_best_loop pieces combos best = some out := by
  intro combos
  induction combos with
  | nil =>
    rintro best (hc | ⟨b, hb⟩)
    · exact absurd rfl hc
    · subst hb
      exact ⟨b, rfl⟩
  | cons c rest ih =>
    intro best _
    match c with
    | (dir, strat) =>
      obtain ⟨bins, hl⟩ := greedy_loop_some s strat dir pieces [] hpl
      simp only [Solver.greedy_best_loop]
      rw [hl]
      simp only
      match best with
      | none => exact ih _ (Or.inr ⟨_, rfl⟩)
      | some b =>
        simp only
        split
        · exact ih _ (Or.inr ⟨_, rfl⟩)
        · exact ih _ (Or.inr ⟨_, rfl⟩)

theorem foldl_inv {σ ι : Type} (Inv : σ → Prop) (f : σ → ι → σ) (l : List ι) (init : σ)
    (h0 : Inv init) (hstep : ∀ st x, x ∈ l → Inv st → Inv (f st x)) :
    Inv (l.foldl f init) := by
  induction l generalizing init with
  | nil => exact h0
  | cons x rest ih =>
    exact ih (f init x) (hstep init x (List.mem_cons_self x rest) h0)
      (fun st y hy hInv => hstep st y (List.mem_cons_of_mem x hy) hInv)

theorem orient_pos (r : Rect) (b : Bool) (h : rectPos r) :
    rectPos (if b then r.rotated else r) := by
  cases b
  · exact h
  · exact ⟨h.2, h.1⟩

theorem bb_recurse_inv (s : Solver) (N A : Nat) :
    ∀ (rest : List (Rect × RotationConstraint)) (fuel : Nat)
      (bins : List GuillotineBin) (st : Option (List GuillotineBin) × Nat),
    (∀ pr ∈ rest, rectPos pr.1) → rectPos s.stock →
    BinsOk s.stock bins → (∀ b ∈ bins, b.placements ≠ []) →
    totalPl bins + rest.length = N →
    totalArea bins + (rest.map (fun pr => pr.1.area)).sum = A →
    (∀ bs, st.1 = some bs →
      BinsOk s.stock bs ∧ (∀ b ∈ bs, b.placements ≠ []) ∧
      totalPl bs = N ∧ totalArea bs = A) →
    (∀ bs, (s.bb_recurse fuel rest bins st).1 = some bs →
      BinsOk s.stock bs ∧ (∀ b ∈ bs, b.placements ≠ []) ∧
      totalPl bs = N ∧ totalArea bs = A) := by
  intro rest
  induction rest with
  | nil =>
    intro fuel bins st hrest hstock hBins hne hcnt harea hstinv bs hout
    simp only [Solver.bb_recurse] at hout
    split_ifs at hout with h1
    · simp only at hout
      injection hout with hout
      subst hout
      refine ⟨hBins, hne, ?_, ?_⟩
      · simpa using hcnt
      · simpa using harea
    · exact hstinv bs hout
  | cons pr rest2 ih =>
    intro fuel bins st hrest hstock hBins hne hcnt harea hstinv bs hout
    obtain ⟨piece, rotation⟩ := pr
    match fuel with
    | 0 => exact hstinv bs hout
    | fuel2 + 1 =>
      simp only [Solver.bb_recurse] at hout
      have hppos : rectPos piece := hrest (piece, rotation) (List.mem_cons_self _ _)
      have hrest2 : ∀ q ∈ rest2, rectPos q.1 :=
        fun q hq => hrest q (List.mem_cons_of_mem _ hq)
      set rem := (List.map (fun pr => pr.1.area) ((piece, rotation) :: rest2)).sum with hrem
      set opf := (List.map (fun b => (List.map (fun f => f.rect.area) b.free_rects).sum)
        bins).sum with hopf
      set minx := (if 0 < rem then (rem + s.stock.area - 1) / s.stock.area else 0) with hminx
      set needed := (if opf < rem then
          bins.length + ((rem - opf) + s.stock.area - 1) / s.stock.area
        else bins.length) with hneeded
      set os := (match rotation with
          | RotationConstraint.Free =>
            if piece.length ≠ piece.width then [false, true] else [false]
          | RotationConstraint.ForceRotate => [true]
          | RotationConstraint.NoRotate => [false]) with hos
      have hstep_existing : ∀ (stA : Option (List GuillotineBin) × Nat) (bi : Nat),
          bi ∈ List.range bins.length →
          (∀ bs2, stA.1 = some bs2 →
            BinsOk s.stock bs2 ∧ (∀ b ∈ bs2, b.placements ≠ []) ∧
            totalPl bs2 = N ∧ totalArea bs2 = A) →
          (∀ bs2, (os.foldl (fun stB (rotated : Bool) =>
                match (bins.getD bi dfltBin).find_best
                    (if rotated then piece.rotated else piece)
                    RotationConstraint.NoRotate ScoreStrategy.BestAreaFit with
                | some scored =>
                  s.bb_recurse fuel2 rest2
                    (bins.set bi ((bins.getD bi dfltBin).place scored
                      (if rotated then piece.rotated else piece)).1) stB
                | none => stB) stA).1 = some bs2 →
            BinsOk s.stock bs2 ∧ (∀ b ∈ bs2, b.placements ≠ []) ∧
            totalPl bs2 = N ∧ totalArea bs2 = A) := by
        intro stA bi hbimem hInvA
        have hbi : bi < bins.length := List.mem_range.mp hbimem
        have hgd : bins.getD bi dfltBin = bins[bi] := List.getD_eq_getElem _ _ hbi
        refine foldl_inv (fun stZ : Option (List GuillotineBin) × Nat =>
            ∀ bs2, stZ.1 = some bs2 →
            BinsOk s.stock bs2 ∧ (∀ b ∈ bs2, b.placements ≠ []) ∧
            totalPl bs2 = N ∧ totalArea bs2 = A) _ _ stA hInvA ?_
        intro stB rotated hrot hInvB
        match hfb : (bins.getD bi dfltBin).find_best
            (if rotated then piece.rotated else piece)
            RotationConstraint.NoRotate ScoreStrategy.BestAreaFit with
        | none => exact hInvB
        | some scored =>
          obtain ⟨hk2, hfits2, _, _⟩ := find_best_some_spec _ _ _ _ _ hfb
          have hbinok : BinOk s.stock (bins.getD bi dfltBin) := by
            rw [hgd]
            exact hBins _ (List.getElem_mem hbi)
          have hplaceok := place_ok s.stock (bins.getD bi dfltBin) scored
            (if rotated then piece.rotated else piece) hbinok
            (orient_pos piece rotated hppos) hk2 hfits2
          have hms := map_sum_set (fun b => b.placements.length) bins bi
            ((bins.getD bi dfltBin).place scored
              (if rotated then piece.rotated else piece)).1 hbi
          have hms2 := map_sum_set GuillotineBin.used_area bins bi
            ((bins.getD bi dfltBin).place scored
              (if rotated then piece.rotated else piece)).1 hbi
          have hlen : (bins.getD bi dfltBin).placements.length =
              bins[bi].placements.length := by rw [hgd]
          have harea2 : (bins.getD bi dfltBin).used_area = bins[bi].used_area := by
            rw [hgd]
          rw [place_pl_len] at hms
          rw [place_used_area] at hms2
          have hoa : (if rotated then piece.rotated else piece).area = piece.area :=
            orient_area piece rotated
          refine ih fuel2 _ stB hrest2 hstock ?_ ?_ ?_ ?_ hInvB
          · intro b hb
            rcases List.mem_or_eq_of_mem_set hb with h | h
            · exact hBins b h
            · subst h
              exact hplaceok
          · intro b hb
            rcases List.mem_or_eq_of_mem_set hb with h | h
            · exact hne b h
            · subst h
              exact place_pl_ne_nil _ _ _
          · unfold totalPl at hcnt ⊢
            simp only [List.length_cons] at hcnt
            omega
          · unfold totalArea at harea ⊢
            rw [hrem] at harea
            simp only [List.map, List.sum_cons] at harea
            omega
      have hstep_newbin : ∀ (stA : Option (List GuillotineBin) × Nat) (dir : CutDirection),
          dir ∈ s.bb_directions →
          (∀ bs2, stA.1 = some bs2 →
            BinsOk s.stock bs2 ∧ (∀ b ∈ bs2, b.placements ≠ []) ∧
            totalPl bs2 = N ∧ totalArea bs2 = A) →
          (∀ bs2, ((match (GuillotineBin.new s.stock s.kerf dir).find_best piece rotation
                ScoreStrategy.BestAreaFit with
              | some scored =>
                s.bb_recurse fuel2 rest2
                  (bins ++ [((GuillotineBin.new s.stock s.kerf dir).place scored piece).1]) stA
              | none => stA).1 = some bs2) →
            BinsOk s.stock bs2 ∧ (∀ b ∈ bs2, b.placements ≠ []) ∧
            totalPl bs2 = N ∧ totalArea bs2 = A) := by
        intro stA dir hdir hInvA
        match hfb : (GuillotineBin.new s.stock s.kerf dir).find_best piece rotation
            ScoreStrategy.BestAreaFit with
        | none => exact hInvA
        | some scored =>
          obtain ⟨hk2, hfits2, _, _⟩ := find_best_some_spec _ _ _ _ _ hfb
          have hplaceok := place_ok s.stock (GuillotineBin.new s.stock s.kerf dir) scored
            piece (binOk_new s.stock s.kerf dir hstock) hppos hk2 hfits2
          refine ih fuel2 _ stA hrest2 hstock ?_ ?_ ?_ ?_ hInvA
          · intro b hb
            rcases List.mem_append.mp hb with h | h
            · exact hBins b h
            · rw [List.mem_singleton] at h
              subst h
              exact hplaceok
          · intro b hb
            rcases List.mem_append.mp hb with h | h
            · exact hne b h
            · rw [List.mem_singleton] at h
              subst h
              exact place_pl_ne_nil _ _ _
          · unfold totalPl at hcnt ⊢
            simp only [List.length_cons] at hcnt
            rw [List.map_append, List.sum_append]
            simp only [List.map, List.sum_cons, List.sum_nil]
            rw [place_pl_len]
            have hz : (GuillotineBin.new s.stock s.kerf dir).placements.length = 0 := rfl
            omega
          · unfold totalArea at harea ⊢
            rw [hrem] at harea
            simp only [List.map, List.sum_cons] at harea
            rw [List.map_append, List.sum_append]
            simp only [List.map, List.sum_cons, List.sum_nil]
            rw [place_used_area]
            have hz : (GuillotineBin.new s.stock s.kerf dir).used_area = 0 := rfl
            omega
      split at hout
      · exact hstinv bs hout
      · split at hout
        · exact hstinv bs hout
        · split at hout
          · refine foldl_inv (fun stZ : Option (List GuillotineBin) × Nat =>
                ∀ bs2, stZ.1 = some bs2 →
                BinsOk s.stock bs2 ∧ (∀ b ∈ bs2, b.placements ≠ []) ∧
                totalPl bs2 = N ∧ totalArea bs2 = A) _ _ _
              (foldl_inv (fun stZ : Option (List GuillotineBin) × Nat =>
                ∀ bs2, stZ.1 = some bs2 →
                BinsOk s.stock bs2 ∧ (∀ b ∈ bs2, b.placements ≠ []) ∧
                totalPl bs2 = N ∧ totalArea bs2 = A) _ _ st hstinv hstep_existing)
              hstep_newbin bs hout
          · exact foldl_inv (fun stZ : Option (List GuillotineBin) × Nat =>
                ∀ bs2, stZ.1 = some bs2 →
                BinsOk s.stock bs2 ∧ (∀ b ∈ bs2, b.placements ≠ []) ∧
                totalPl bs2 = N ∧ totalArea bs2 = A) _ _ st hstinv hstep_existing bs hout

theorem insertDescArea_perm (x : Rect × RotationConstraint)
    (l : List (Rect × RotationConstraint)) : (insertDescArea x l).Perm (x :: l) := by
  induction l with
  | nil => exact List.Perm.refl _
  | cons y ys ih =>
    simp only [insertDescArea]
    split
    · exact (ih.cons y).trans (List.Perm.swap x y ys)
    · exact List.Perm.refl _

theorem sortDescArea_perm_aux (l acc : List (Rect × RotationConstraint)) :
    (l.foldl (fun acc x => insertDescArea x acc) acc).Perm (l ++ acc) := by
  induction l generalizing acc with
  | nil => simp
  | cons x t ih =>
    simp only [List.foldl]
    refine (ih (insertDescArea x acc)).trans ?_
    refine (List.Perm.append_left t (insertDescArea_perm x acc)).trans ?_
    simp only [List.cons_append]
    exact List.perm_middle

theorem sortDescArea_perm (l : List (Rect × RotationConstraint)) :
    (sortDescArea l).Perm l := by
  unfold sortDescArea
  simpa using sortDescArea_perm_aux l []

theorem expand_demands_perm (s : Solver) :
    s.expand_demands.Perm (s.demands.flatMap (fun d =>
      List.replicate d.qty (d.rect,
        (RotationConstraint.from_grain s.stock_grain d.grain
          d.allow_rotate).with_cut_direction s.cut_direction d.rect))) :=
  sortDescArea_perm _

theorem expand_mem (s : Solver) (pr : Rect × RotationConstraint)
    (h : pr ∈ s.expand_demands) : ∃ d ∈ s.demands, pr.1 = d.rect := by
  have h2 := (expand_demands_perm s).mem_iff.mp h
  rw [List.mem_flatMap] at h2
  obtain ⟨d, hd, hpr⟩ := h2
  rw [List.mem_replicate] at hpr
  exact ⟨d, hd, by rw [hpr.2]⟩

theorem expand_length (s : Solver) :
    s.expand_demands.length = (s.demands.map (fun d => d.qty)).sum := by
  rw [(expand_demands_perm s).length_eq, List.length_flatMap]
  congr 1
  apply List.map_congr_left
  intro d hd
  simp [List.length_replicate]

theorem bins_to_solution_facts (s : Solver) (bins : List GuillotineBin) :
    (s.bins_to_solution bins).sheets.length = bins.length ∧
    (((s.bins_to_solution bins).sheets.map (fun sh => sh.placements.length)).sum
      = totalPl bins) ∧
    (((s.bins_to_solution bins).sheets.map
        (fun sh => (sh.placements.map (fun p => p.rect.area)).sum)).sum = totalArea bins) ∧
    (∀ sheet ∈ (s.bins_to_solution bins).sheets, ∃ b ∈ bins,
      sheet.placements = b.placements) ∧
    (s.bins_to_solution bins).stock = s.stock := by
  refine ⟨by simp [Solver.bins_to_solution], ?_, ?_, ?_, rfl⟩
  · unfold Solver.bins_to_solution totalPl
    rw [List.map_map]
    rfl
  · unfold Solver.bins_to_solution totalArea
    rw [List.map_map]
    rfl
  · intro sheet hsheet
    unfold Solver.bins_to_solution at hsheet
    simp only [List.mem_map] at hsheet
    obtain ⟨b, hb, hsb⟩ := hsheet
    exact ⟨b, hb, by rw [← hsb]⟩

/-- The greedy combo list is never empty. -/
theorem greedy_combos_ne_nil (s : Solver) :
    (s.greedy_directions.flatMap
      (fun d => strategiesList.map (fun st => (d, st)))) ≠ [] := by
  unfold Solver.greedy_directions
  cases s.cut_direction <;> simp [strategiesList]

/-- Solver::solve returns a solution whenever every expanded piece fits an
empty sheet under its rotation constraint. -/
theorem solve_some (s : Solver)
    (hpl : ∀ pr ∈ s.expand_demands, Placeable s.stock pr) :
    ∃ sol, s.solve = some sol := by
  obtain ⟨g, hg⟩ := greedy_best_loop_some s s.expand_demands hpl
    (s.greedy_directions.flatMap (fun d => strategiesList.map (fun st => (d, st))))
    none (Or.inl (greedy_combos_ne_nil s))
  have hgb : s.greedy_best s.expand_demands = some g := hg
  unfold Solver.solve
  by_cases he : s.expand_demands.isEmpty
  · rw [if_pos he]
    exact ⟨_, rfl⟩
  · rw [if_neg he]
    rw [hgb]
    simp only
    split
    · exact ⟨_, rfl⟩
    · exact ⟨_, rfl⟩

/-- Case analysis on the result of branch_and_bound. -/
theorem branch_and_bound_cases (s : Solver) (pieces : List (Rect × RotationConstraint))
    (upper : Nat) :
    s.branch_and_bound pieces upper = { sheets := [], stock := s.stock } ∨
    ∃ bins, (s.bb_recurse pieces.length pieces [] (none, upper)).1 = some bins ∧
      s.branch_and_bound pieces upper = s.bins_to_solution bins := by
  unfold Solver.branch_and_bound
  by_cases h20 : 20 < pieces.length
  · rw [if_pos h20]
    left
    rfl
  · rw [if_neg h20]
    cases hbb : (s.bb_recurse pieces.length pieces [] (none, upper)).1 with
    | none => left; rfl
    | some bins => right; exact ⟨bins, rfl, rfl⟩

theorem solve_master (s : Solver) (sol : Solution)
    (hstock : rectPos s.stock)
    (hdem : ∀ pr ∈ s.expand_demands, rectPos pr.1)
    (hsolve : s.solve = some sol) :
    (∀ sheet ∈ sol.sheets, ∃ b, BinOk s.stock b ∧ sheet.placements = b.placements ∧
      b.placements ≠ []) ∧
    ((sol.sheets.map (fun sh => sh.placements.length)).sum = s.expand_demands.length) ∧
    ((sol.sheets.map (fun sh => (sh.placements.map (fun p => p.rect.area)).sum)).sum
      = (s.expand_demands.map (fun pr => pr.1.area)).sum) ∧
    sol.stock = s.stock := by
  have hQ : ∀ bins, BinsOk s.stock bins → (∀ b ∈ bins, b.placements ≠ []) →
      totalPl bins = s.expand_demands.length →
      totalArea bins = (s.expand_demands.map (fun pr => pr.1.area)).sum →
      (∀ sheet ∈ (s.bins_to_solution bins).sheets, ∃ b, BinOk s.stock b ∧
        sheet.placements = b.placements ∧ b.placements ≠ []) ∧
      (((s.bins_to_solution bins).sheets.map (fun sh => sh.placements.length)).sum =
        s.expand_demands.length) ∧
      (((s.bins_to_solution bins).sheets.map
        (fun sh => (sh.placements.map (fun p => p.rect.area)).sum)).sum =
        (s.expand_demands.map (fun pr => pr.1.area)).sum) ∧
      (s.bins_to_solution bins).stock = s.stock := by
    intro bins hB hn hc ha
    obtain ⟨f1, f2, f3, f4, f5⟩ := bins_to_solution_facts s bins
    refine ⟨?_, by rw [f2, hc], by rw [f3, ha], f5⟩
    intro sheet hsheet
    obtain ⟨b, hb, hsb⟩ := f4 sheet hsheet
    exact ⟨b, hB b hb, hsb, fun hnil => hn b hb hnil⟩
  simp only [Solver.solve] at hsolve
  split at hsolve
  · -- no pieces
    rename_i hempty
    injection hsolve with hsolve
    subst hsolve
    have hlen : s.expand_demands.length = 0 := by
      rw [List.isEmpty_iff] at hempty
      rw [hempty]
      rfl
    have hnil : s.expand_demands = [] := List.length_eq_zero.mp hlen
    refine ⟨by simp, by simp [hlen], by simp [hnil], rfl⟩
  · match hgb : s.greedy_best s.expand_demands with
    | none =>
      rw [hgb] at hsolve
      cases hsolve
    | some greedy =>
      rw [hgb] at hsolve
      simp only at hsolve
      have hgreedyProps :
          (∀ sheet ∈ greedy.sheets, ∃ b, BinOk s.stock b ∧
            sheet.placements = b.placements ∧ b.placements ≠ []) ∧
          ((greedy.sheets.map (fun sh => sh.placements.length)).sum =
            s.expand_demands.length) ∧
          ((greedy.sheets.map
            (fun sh => (sh.placements.map (fun p => p.rect.area)).sum)).sum =
            (s.expand_demands.map (fun pr => pr.1.area)).sum) ∧
          greedy.stock = s.stock := by
        unfold Solver.greedy_best at hgb
        refine greedy_best_loop_ok s s.expand_demands (fun sol2 =>
          (∀ sheet ∈ sol2.sheets, ∃ b, BinOk s.stock b ∧
            sheet.placements = b.placements ∧ b.placements ≠ []) ∧
          ((sol2.sheets.map (fun sh => sh.placements.length)).sum =
            s.expand_demands.length) ∧
          ((sol2.sheets.map
            (fun sh => (sh.placements.map (fun p => p.rect.area)).sum)).sum =
            (s.expand_demands.map (fun pr => pr.1.area)).sum) ∧
          sol2.stock = s.stock) _ none greedy hgb ?_ ?_
        · intro sol2 h2
          cases h2
        · intro dir strat bins hloop
          obtain ⟨g1, g2, g3, g4⟩ := greedy_loop_ok s strat dir s.expand_demands [] bins
            hloop hdem hstock (by intro b hb; cases hb)
          refine hQ bins g1 (g4 (by intro b hb; cases hb)) ?_ ?_
          · unfold totalPl at g2 ⊢
            simpa using g2
          · unfold totalArea at g3 ⊢
            simpa using g3
      split at hsolve
      · -- branch and bound result used
        rename_i hbbcond
        injection hsolve with hsolve
        subst hsolve
        rcases branch_and_bound_cases s s.expand_demands greedy.sheets.length with
          hempty | ⟨bins, hbb, heq⟩
        · rw [hempty] at hbbcond
          simp at hbbcond
        · rw [heq]
          have hfacts := bb_recurse_inv s s.expand_demands.length
            ((s.expand_demands.map (fun pr => pr.1.area)).sum)
            s.expand_demands s.expand_demands.length [] (none, greedy.sheets.length)
            hdem hstock (by intro b hb; cases hb) (by intro b hb; cases hb)
            (by simp [totalPl]) (by simp [totalArea])
            (by intro bs2 h2; cases h2) bins hbb
          obtain ⟨f1, f2, f3, f4⟩ := hfacts
          exact hQ bins f1 f2 f3 f4
      · injection hsolve with hsolve
        subst hsolve
        exact hgreedyProps

/-! Cell-counting area bound: the placements of one sheet are pairwise
disjoint boxes inside the stock, so their areas sum to at most the stock
area. -/

theorem plCells_card (p : Placement) : (plCells p).card = p.rect.area := by
  simp [plCells, Rect.area]

theorem plCells_disjoint (a b : Placement) (h : plNoOverlap a b) :
    Disjoint (plCells a) (plCells b) := by
  rw [Finset.disjoint_left]
  intro c hca hcb
  simp only [plCells, Finset.mem_product, Finset.mem_Ico] at hca hcb
  exact h ⟨by omega, by omega, by omega, by omega⟩

theorem mem_plCellsUnion (c : Nat × Nat) (ps : List Placement) :
    c ∈ plCellsUnion ps ↔ ∃ p ∈ ps, c ∈ plCells p := by
  induction ps with
  | nil => simp [plCellsUnion]
  | cons p rest ih =>
    simp only [plCellsUnion, List.foldr] at ih ⊢
    simp [Finset.mem_union, ih]

theorem plCellsUnion_card (ps : List Placement) (h : ps.Pairwise plNoOverlap) :
    (plCellsUnion ps).card = (ps.map (fun p => p.rect.area)).sum := by
  induction ps with
  | nil => simp [plCellsUnion]
  | cons p rest ih =>
    rw [List.pairwise_cons] at h
    have hd : Disjoint (plCells p) (plCellsUnion rest) := by
      rw [Finset.disjoint_left]
      intro c hca hcu
      obtain ⟨q, hq, hcq⟩ := (mem_plCellsUnion c rest).mp hcu
      exact absurd hca (Finset.disjoint_left.mp (plCells_disjoint p q (h.1 q hq)) · hcq)
    show (plCells p ∪ plCellsUnion rest).card = _
    rw [Finset.card_union_of_disjoint hd, plCells_card, ih h.2]
    simp

theorem plCellsUnion_subset (S : Rect) (ps : List Placement)
    (h : ∀ p ∈ ps, inStock S p.x p.y p.rect) :
    plCellsUnion ps ⊆ Finset.Ico 0 S.length ×ˢ Finset.Ico 0 S.width := by
  intro c hc
  obtain ⟨p, hp, hcp⟩ := (mem_plCellsUnion c ps).mp hc
  have hin := h p hp
  simp only [plCells, Finset.mem_product, Finset.mem_Ico] at hcp
  simp only [Finset.mem_product, Finset.mem_Ico]
  exact ⟨⟨Nat.zero_le _, by omega⟩, ⟨Nat.zero_le _, by omega⟩⟩

theorem sheet_area_le (S : Rect) (ps : List Placement)
    (hpw : ps.Pairwise plNoOverlap) (hin : ∀ p ∈ ps, inStock S p.x p.y p.rect) :
    (ps.map (fun p => p.rect.area)).sum ≤ S.area := by
  rw [← plCellsUnion_card ps hpw]
  calc (plCellsUnion ps).card
      ≤ ((Finset.Ico 0 S.length ×ˢ Finset.Ico 0 S.width).card) :=
        Finset.card_le_card (plCellsUnion_subset S ps hin)
    _ = S.area := by simp [Rect.area]

theorem ceilDiv_le_of_le_mul (A SA n : Nat) (hSA : 0 < SA) (h : A ≤ n * SA) :
    ceilDiv A SA ≤ n := by
  unfold ceilDiv
  rw [Nat.div_le_iff_le_mul_add_pred hSA]
  have hmul : SA * n = n * SA := Nat.mul_comm SA n
  omega

/-! The kerf field does not enter demand expansion. -/

theorem withKerf_expand (s : Solver) (k : Nat) :
    (withKerf s k).expand_demands = s.expand_demands := rfl

theorem withKerf_stock (s : Solver) (k : Nat) : (withKerf s k).stock = s.stock := rfl

/-- Any returned solution uses at least ceil(total piece area / stock area)
sheets, because each sheet's disjoint in-bounds placements cover at most the
stock area. -/
theorem solve_sheet_lower_bound (s : Solver) (sol : Solution)
    (hstock : rectPos s.stock)
    (hdem : ∀ pr ∈ s.expand_demands, rectPos pr.1)
    (hsolve : s.solve = some sol) :
    ceilDiv ((s.expand_demands.map (fun pr => pr.1.area)).sum) s.stock.area ≤
      sol.sheet_count := by
  obtain ⟨f1, f2, f3, f4⟩ := solve_master s sol hstock hdem hsolve
  have hSA : 0 < s.stock.area := Nat.mul_pos hstock.1 hstock.2
  have hsheet : ∀ a ∈ sol.sheets.map
      (fun sh => (sh.placements.map (fun p => p.rect.area)).sum), a ≤ s.stock.area := by
    intro a ha
    rw [List.mem_map] at ha
    obtain ⟨sh, hsh, rfl⟩ := ha
    obtain ⟨b, hb, heq, _⟩ := f1 sh hsh
    rw [heq]
    exact sheet_area_le s.stock b.placements hb.2.1 (fun p hp => (hb.1 p hp).1)
  have hbound := List.sum_le_card_nsmul _ s.stock.area hsheet
  rw [List.length_map, smul_eq_mul] at hbound
  refine ceilDiv_le_of_le_mul _ _ _ hSA ?_
  rw [← f3]
  unfold Solution.sheet_count
  exact hbound

/-! The claim theorems over Solver.solve, and their witnesses. -/

/-- Claim C2: every placement of every sheet of a returned solution lies
within the stock (p.x + p.rect.length ≤ S.length and p.y + p.rect.width ≤
S.width) and the placements of one sheet are pairwise non-overlapping in the
open-interval sense. -/
theorem c2_placements_in_stock_disjoint (s : Solver) (sol : Solution)
    (hstock : rectPos s.stock)
    (hdem : ∀ pr ∈ s.expand_demands, rectPos pr.1)
    (hsolve : s.solve = some sol) :
    ∀ sheet ∈ sol.sheets,
      (∀ p ∈ sheet.placements,
        p.x + p.rect.length ≤ s.stock.length ∧ p.y + p.rect.width ≤ s.stock.width) ∧
      sheet.placements.Pairwise plNoOverlap := by
  obtain ⟨f1, _, _, _⟩ := solve_master s sol hstock hdem hsolve
  intro sheet hsheet
  obtain ⟨b, hb, heq, _⟩ := f1 sheet hsheet
  rw [heq]
  exact ⟨fun p hp => (hb.1 p hp).1, hb.2.1⟩

theorem c2_witness :
    rectPos wInput.stock ∧
    ∀ sheet ∈ wSol.sheets,
      (∀ p ∈ sheet.placements,
        p.x + p.rect.length ≤ wInput.stock.length ∧
        p.y + p.rect.width ≤ wInput.stock.width) ∧
      sheet.placements.Pairwise plNoOverlap :=
  ⟨by decide,
   c2_placements_in_stock_disjoint wInput wSol (by decide) (by decide) (by decide)⟩

theorem c3_witness :
    ((GuillotineBin.new ⟨10, 10⟩ 0 CutDirection.AlongLength).split
      ⟨0, 0, ⟨10, 10⟩⟩ ⟨4, 3⟩).free_rects =
    (GuillotineBin.new ⟨10, 10⟩ 0 CutDirection.AlongLength).free_rects ++
      [⟨4, 0, ⟨6, 3⟩⟩, ⟨0, 3, ⟨10, 7⟩⟩] :=
  ((c3_split_rule (GuillotineBin.new ⟨10, 10⟩ 0 CutDirection.AlongLength)
    ⟨0, 0, ⟨10, 10⟩⟩ ⟨4, 3⟩ (by decide) (by decide)).1 (by decide) (by decide)).1
    (Or.inl rfl)

/-- Claim C6: when every expanded piece fits an empty sheet under its
rotation constraint, solve returns a solution and its total number of
placements over all sheets equals the sum of the demand quantities. -/
theorem c6_total_placements (s : Solver)
    (hstock : rectPos s.stock)
    (hdem : ∀ pr ∈ s.expand_demands, rectPos pr.1)
    (hpl : ∀ pr ∈ s.expand_demands, Placeable s.stock pr) :
    ∃ sol, s.solve = some sol ∧
      (sol.sheets.map (fun sh => sh.placements.length)).sum =
        (s.demands.map (fun d => d.qty)).sum := by
  obtain ⟨sol, hsolve⟩ := solve_some s hpl
  obtain ⟨_, f2, _, _⟩ := solve_master s sol hstock hdem hsolve
  exact ⟨sol, hsolve, by rw [f2, expand_length]⟩

theorem c6_witness :
    rectPos wInput.stock ∧
    ∃ sol, wInput.solve = some sol ∧
      (sol.sheets.map (fun sh => sh.placements.length)).sum =
        (wInput.demands.map (fun d => d.qty)).sum :=
  ⟨by decide, c6_total_placements wInput (by decide) (by decide) (by decide)⟩

/-- Claim C7 (amended): for two inputs identical except for the kerf,
k1 < k2, if the smaller-kerf solution attains the area lower bound
ceil(total piece area / stock area) on its sheet count, then the larger-kerf
solution uses at least as many sheets. -/
theorem c7_kerf_monotone_amended (s : Solver) (k1 k2 : Nat) (sol1 sol2 : Solution)
    (hk : k1 < k2)
    (hstock : rectPos s.stock)
    (hdem : ∀ pr ∈ s.expand_demands, rectPos pr.1)
    (h1 : (withKerf s k1).solve = some sol1)
    (h2 : (withKerf s k2).solve = some sol2)
    (hlb : sol1.sheet_count =
      ceilDiv ((s.expand_demands.map (fun pr => pr.1.area)).sum) s.stock.area) :
    sol1.sheet_count ≤ sol2.sheet_count := by
  have hbound := solve_sheet_lower_bound (withKerf s k2) sol2 hstock hdem h2
  rw [hlb]
  exact hbound

theorem c7_amended_witness :
    (0 : Nat) < 1 ∧ w7sol.sheet_count ≤ w7sol.sheet_count :=
  ⟨by decide,
   c7_kerf_monotone_amended w7base 0 1 w7sol w7sol (by decide) (by decide)
     (by decide) (by decide) (by decide) (by decide)⟩

/-- Claim C7 is false as stated: on c7Input raising the kerf from 1 to 2
lowers the sheet count from 3 to 2. -/
theorem c7_kerf_not_monotone :
    (1 : Nat) < 2 ∧
    (c7Input 1).solve.map Solution.sheet_count = some 3 ∧
    (c7Input 2).solve.map Solution.sheet_count = some 2 := by
  refine ⟨by decide, by decide, by decide⟩

/-- Claim C10: every sheet of a returned solution has a non-empty placement
list. -/
theorem c10_no_empty_sheet (s : Solver) (sol : Solution)
    (hstock : rectPos s.stock)
    (hdem : ∀ pr ∈ s.expand_demands, rectPos pr.1)
    (hsolve : s.solve = some sol) :
    ∀ sheet ∈ sol.sheets, sheet.placements ≠ [] := by
  obtain ⟨f1, _, _, _⟩ := solve_master s sol hstock hdem hsolve
  intro sheet hsheet
  obtain ⟨b, _, heq, hne⟩ := f1 sheet hsheet
  rw [heq]
  exact hne

theorem c10_witness :
    rectPos wInput.stock ∧ ∀ sheet ∈ wSol.sheets, sheet.placements ≠ [] :=
  ⟨by decide, c10_no_empty_sheet wInput wSol (by decide) (by decide) (by decide)⟩

/-- Claim C1 is violated by c1Input: every expanded piece carries the
ForceRotate constraint, yet the returned solution contains a placement with
rotated = false, because the branch-and-bound existing-bin path pre-rotates
the piece and then places it under NoRotate, losing the flag. -/
theorem c1_forced_rotation_dropped :
    (c1Input.expand_demands.all
      (fun pr => pr.2 == RotationConstraint.ForceRotate)) = true ∧
    (match c1Input.solve with
     | some sol => sol.sheets.any (fun sh => sh.placements.any (fun p => !p.rotated))
     | none => false) = true := by
  refine ⟨by decide, by decide⟩
